import Mathlib

/-!
Persistent vector (`immutable_vector.h`).

A shallow embedding of the radix-32 persistent vector.  The embedding has two layers.

* The *tree layer* reads a `std::shared_ptr<Node<T>>` as an optional immutable tree.
* The *store layer* (further down) keeps the nodes in an explicit store addressed by
  pointers, so that allocation, the one in-place assignment of the source and aliasing
  between handles are visible.

`size_t` is a 64-bit unsigned integer: values are natural numbers, `size_ + 1` is taken
modulo `2 ^ 64`, and a shift by 64 bits or more is undefined behaviour.  Undefined behaviour
(an oversized shift, dereferencing an empty `shared_ptr`, indexing a `std::vector` outside
its bounds) is an explicit error value, so "the call succeeds" is a statement one can prove.
-/

/-- Width in bits of one radix digit (`const size_t kBitsInBatch = 5`). -/
def kBitsInBatch : Nat := 5

/-- Width in bits of `size_t`. -/
def kSizeBits : Nat := 64

set_option linter.unusedVariables false

/-- The ways in which a call can fail. -/
inductive Error where
  /-- Signals `std::out_of_range`, thrown by `PopBack` on an empty vector. -/
  | out_of_range
  /-- Signals `std::runtime_error`, thrown by `GetValue` when the lookup finds nothing. -/
  | runtime_error
  /-- Undefined behaviour of the C++ abstract machine. -/
  | undefined
  deriving DecidableEq, Repr

/-- The `Node<T>` of the source: a vector of child links, each empty or pointing to a node,
and an optional value. -/
inductive Node (T : Type) where
  | mk (children : List (Option (Node T))) (value : Option T)

namespace Node

variable {T : Type}

/-- Field `children`. -/
def children : Node T → List (Option (Node T))
  | mk c _ => c

/-- Field `value`. -/
def value : Node T → Option T
  | mk _ v => v

/-- Constructor `Node()`: `1 << kBitsInBatch` empty links, no value. -/
def empty : Node T := mk (List.replicate (1 <<< kBitsInBatch) none) none

/-- Constructor `Node(const T& value)`: `1 << kBitsInBatch` empty links and a value. -/
def ofValue (value : T) : Node T := mk (List.replicate (1 <<< kBitsInBatch) none) (some value)

end Node

/-- The handle `ImmutableVector<T>`: a root link and a size. -/
structure ImmutableVector (T : Type) where
  root_ : Option (Node T)
  size_ : Nat

namespace ImmutableVector

variable {T : Type}

/-- The mask built by the loop of `GetBitBatch`:
`mask = 0; for (i = 0; i < kBitsInBatch; ++i) mask |= (1 << i);`. -/
def bitMask : Nat :=
  (List.range kBitsInBatch).foldl (fun mask i => mask ||| (1 <<< i)) 0

/-- Member function `GetBitBatch(index, batch_id)`: shift right by
`batch_id * kBitsInBatch` and apply the mask.  The shift is defined only when its amount is
below the width of `size_t`. -/
def GetBitBatch (index batch_id : Nat) : Except Error Nat :=
  if batch_id * kBitsInBatch < kSizeBits then
    let batch := index >>> (batch_id * kBitsInBatch)
    let mask := bitMask
    .ok (batch &&& mask)
  else .error .undefined

/-- The loop of `GetMaxBatchId`: `while (batch) { batch >>= kBitsInBatch; ++res; }`. -/
def GetMaxBatchIdLoop (batch res : Nat) : Nat :=
  if h : batch = 0 then res
  else GetMaxBatchIdLoop (batch >>> kBitsInBatch) (res + 1)
termination_by batch
decreasing_by
  simp only [kBitsInBatch, Nat.shiftRight_eq_div_pow]
  exact Nat.div_lt_self (Nat.pos_of_ne_zero h) (by norm_num)

/-- Member function `GetMaxBatchId(batch)`: the loop count, at least 1. -/
def GetMaxBatchId (batch : Nat) : Nat :=
  max 1 (GetMaxBatchIdLoop batch 0)

/-- Member function `GetValue(v, index, batch_id, max_batch_id)`. -/
def GetValue (v : Option (Node T)) (index batch_id max_batch_id : Nat) : Except Error T :=
  if batch_id = max_batch_id then
    match v with
    | none => .error .runtime_error
    | some n =>
      match n.value with
      | none => .error .runtime_error
      | some x => .ok x
  else
    match h : GetBitBatch index batch_id with
    | .error e => .error e
    | .ok bits =>
      match v with
      | none => .error .runtime_error
      | some n =>
        match n.children[bits]? with
        | none => .error .undefined
        | some child => GetValue child index (batch_id + 1) max_batch_id
termination_by 13 - batch_id
decreasing_by
  unfold GetBitBatch at h
  split at h
  · rename_i hlt
    simp only [kBitsInBatch, kSizeBits] at hlt
    omega
  · cases h

/-- Member function `Insert(v, index, batch_id, max_batch_id, value)`. -/
def Insert (v : Option (Node T)) (index batch_id max_batch_id : Nat) (value : T) :
    Except Error (Option (Node T)) :=
  if batch_id = max_batch_id then
    .ok (some (Node.ofValue value))
  else
    match h : GetBitBatch index batch_id with
    | .error e => .error e
    | .ok bits =>
      match v with
      | none => .error .undefined
      | some n =>
        match n.children[bits]? with
        | none => .error .undefined
        | some child =>
          let tmp_node : Option (Node T) :=
            match child with
            | none => some Node.empty
            | some c => some c
          match Insert tmp_node index (batch_id + 1) max_batch_id value with
          | .error e => .error e
          | .ok r => .ok (some (Node.mk (n.children.set bits r) n.value))
termination_by 13 - batch_id
decreasing_by
  unfold GetBitBatch at h
  split at h
  · rename_i hlt
    simp only [kBitsInBatch, kSizeBits] at hlt
    omega
  · cases h

/-- Member function `SetValue(v, index, batch_id, max_batch_id, value)`. -/
def SetValue (v : Option (Node T)) (index batch_id max_batch_id : Nat) (value : T) :
    Except Error (Option (Node T)) :=
  if batch_id = max_batch_id then
    match v with
    | none => .error .undefined
    | some n => .ok (some (Node.mk n.children (some value)))
  else
    match h : GetBitBatch index batch_id with
    | .error e => .error e
    | .ok bits =>
      match v with
      | none => .error .undefined
      | some n =>
        match n.children[bits]? with
        | none => .error .undefined
        | some child =>
          let tmp_node : Option (Node T) :=
            match child with
            | none => some Node.empty
            | some c => some c
          match SetValue tmp_node index (batch_id + 1) max_batch_id value with
          | .error e => .error e
          | .ok r => .ok (some (Node.mk (n.children.set bits r) n.value))
termination_by 13 - batch_id
decreasing_by
  unfold GetBitBatch at h
  split at h
  · rename_i hlt
    simp only [kBitsInBatch, kSizeBits] at hlt
    omega
  · cases h

/-- Member function `Erase(v, index, batch_id, max_batch_id)`. -/
def Erase (v : Option (Node T)) (index batch_id max_batch_id : Nat) :
    Except Error (Option (Node T)) :=
  if batch_id = max_batch_id then
    .ok none
  else
    match h : GetBitBatch index batch_id with
    | .error e => .error e
    | .ok bits =>
      match v with
      | none => .error .undefined
      | some n =>
        match n.children[bits]? with
        | none => .error .undefined
        | some child =>
          let tmp_node : Option (Node T) :=
            match child with
            | none => some Node.empty
            | some c => some c
          match Erase tmp_node index (batch_id + 1) max_batch_id with
          | .error e => .error e
          | .ok r => .ok (some (Node.mk (n.children.set bits r) n.value))
termination_by 13 - batch_id
decreasing_by
  unfold GetBitBatch at h
  split at h
  · rename_i hlt
    simp only [kBitsInBatch, kSizeBits] at hlt
    omega
  · cases h

/-- Default constructor `ImmutableVector()`. -/
def new : ImmutableVector T := ⟨some Node.empty, 0⟩

/-- Member function `Copy(other)`: overwrite both fields. -/
def Copy (_self other : ImmutableVector T) : ImmutableVector T :=
  ⟨other.root_, other.size_⟩

/-- Member function `Size()`. -/
def Size (self : ImmutableVector T) : Nat := self.size_

/-- Member function `Get(index)`. -/
def Get (self : ImmutableVector T) (index : Nat) : Except Error T :=
  GetValue self.root_ index 0 (GetMaxBatchId index)

/-- Member function `Set(index, value)`. -/
def Set (self : ImmutableVector T) (index : Nat) (value : T) :
    Except Error (ImmutableVector T) :=
  match SetValue self.root_ index 0 (GetMaxBatchId index) value with
  | .error e => .error e
  | .ok r => .ok ⟨r, self.size_⟩

/-- Member function `PushBack(value)`; `size_ + 1` is computed in `size_t`. -/
def PushBack (self : ImmutableVector T) (value : T) : Except Error (ImmutableVector T) :=
  match Insert self.root_ self.size_ 0 (GetMaxBatchId self.size_) value with
  | .error e => .error e
  | .ok r => .ok ⟨r, (self.size_ + 1) % 2 ^ kSizeBits⟩

/-- Member function `PopBack()`. -/
def PopBack (self : ImmutableVector T) : Except Error (ImmutableVector T) :=
  if self.size_ = 0 then .error .out_of_range
  else
    match Erase self.root_ self.size_ 0 (GetMaxBatchId self.size_) with
    | .error e => .error e
    | .ok r => .ok ⟨r, self.size_ - 1⟩

/-- The loop shared by the three filling constructors:
`for (el : l) result = result.PushBack(el)`. -/
def pushAll (result : ImmutableVector T) (l : List T) : Except Error (ImmutableVector T) :=
  l.foldlM (fun result el => result.PushBack el) result

/-- Constructor `ImmutableVector(size_t count, const T& value)`: the member initialisers,
the loop of `count` appends to a local `result`, then `Copy(result)`. -/
def ofCount (count : Nat) (value : T) : Except Error (ImmutableVector T) :=
  let self : ImmutableVector T := ⟨some Node.empty, count⟩
  match pushAll new ((List.range count).map (fun _ => value)) with
  | .error e => .error e
  | .ok result => .ok (self.Copy result)

/-- Constructor `ImmutableVector(Iterator first, Iterator last)`; `l` lists the elements
of the range.  The members are not initialised before `Copy`, which overwrites both, so
the handle under construction is an argument. -/
def ofRange (self : ImmutableVector T) (l : List T) : Except Error (ImmutableVector T) :=
  match pushAll new l with
  | .error e => .error e
  | .ok result => .ok (self.Copy result)

/-- Constructor `ImmutableVector(std::initializer_list<T> l)`. -/
def ofInitializerList (self : ImmutableVector T) (l : List T) :
    Except Error (ImmutableVector T) :=
  match pushAll new l with
  | .error e => .error e
  | .ok result => .ok (self.Copy result)

end ImmutableVector

/-! ## The store layer

Here a `std::shared_ptr<Node<T>>` is an optional address into a store of nodes.
`std::make_shared` appends a node to the store and returns its address; the assignment
`new_node->value = value` of `SetValue` overwrites a field of a stored node.  Reference
counts and deallocation are not modelled: a node stays in the store when no handle reaches
it any more. -/

/-- A stored `Node<T>`: the child links are addresses. -/
structure Cell (T : Type) where
  children : List (Option Nat)
  value : Option T

/-- The nodes allocated so far; the address of a node is its position. -/
abbrev Store (T : Type) := List (Cell T)

/-- A handle `ImmutableVector<T>` whose root link is an address. -/
structure Handle where
  root_ : Option Nat
  size_ : Nat

namespace Store

variable {T : Type}

/-- Allocation by `std::make_shared`: the fresh address and the extended store. -/
def alloc (s : Store T) (c : Cell T) : Nat × Store T := (s.length, s ++ [c])

/-- The assignment `p->value = value` through a non-empty pointer `p`. -/
def assignValue (s : Store T) (a : Nat) (value : T) : Except Error (Store T) :=
  match s[a]? with
  | none => .error .undefined
  | some c => .ok (s.set a ⟨c.children, some value⟩)

end Store

namespace Cell

variable {T : Type}

/-- Constructor `Node()`. -/
def empty : Cell T := ⟨List.replicate (1 <<< kBitsInBatch) none, none⟩

/-- Constructor `Node(const T& value)`. -/
def ofValue (value : T) : Cell T := ⟨List.replicate (1 <<< kBitsInBatch) none, some value⟩

end Cell

namespace Handle

variable {T : Type}

/-- Member function `GetValue(v, index, batch_id, max_batch_id)` reading the store. -/
def GetValue (s : Store T) (v : Option Nat) (index batch_id max_batch_id : Nat) :
    Except Error T :=
  if batch_id = max_batch_id then
    match v with
    | none => .error .runtime_error
    | some a =>
      match s[a]? with
      | none => .error .undefined
      | some c =>
        match c.value with
        | none => .error .runtime_error
        | some x => .ok x
  else
    match h : ImmutableVector.GetBitBatch index batch_id with
    | .error e => .error e
    | .ok bits =>
      match v with
      | none => .error .runtime_error
      | some a =>
        match s[a]? with
        | none => .error .undefined
        | some c =>
          match c.children[bits]? with
          | none => .error .undefined
          | some child => GetValue s child index (batch_id + 1) max_batch_id
termination_by 13 - batch_id
decreasing_by
  unfold ImmutableVector.GetBitBatch at h
  split at h
  · rename_i hlt
    simp only [kBitsInBatch, kSizeBits] at hlt
    omega
  · cases h

/-- The `tmp_node` of `Insert`, `SetValue` and `Erase`: the child, or a freshly allocated
empty node when the child link is empty. -/
def tmpNode (s : Store T) (child : Option Nat) : Option Nat × Store T :=
  match child with
  | none => (some (s.alloc Cell.empty).1, (s.alloc Cell.empty).2)
  | some c => (some c, s)

/-- The last statement of `Insert`, `SetValue` and `Erase`:
`return std::make_shared<Node<T>>(new_children, v->value)`, where `v` is the address `a`
and is read in the store as it is after the recursive call. -/
def mkCopy (s : Store T) (a : Nat) (new_children : List (Option Nat)) :
    Except Error (Option Nat × Store T) :=
  match s[a]? with
  | none => .error .undefined
  | some c =>
    .ok (some (s.alloc ⟨new_children, c.value⟩).1, (s.alloc ⟨new_children, c.value⟩).2)

/-- Member function `Insert(v, index, batch_id, max_batch_id, value)` on the store. -/
def Insert (s : Store T) (v : Option Nat) (index batch_id max_batch_id : Nat) (value : T) :
    Except Error (Option Nat × Store T) :=
  if batch_id = max_batch_id then
    .ok (some (s.alloc (Cell.ofValue value)).1, (s.alloc (Cell.ofValue value)).2)
  else
    match h : ImmutableVector.GetBitBatch index batch_id with
    | .error e => .error e
    | .ok bits =>
      match v with
      | none => .error .undefined
      | some a =>
        match s[a]? with
        | none => .error .undefined
        | some c =>
          let new_children := c.children
          match c.children[bits]? with
          | none => .error .undefined
          | some child =>
            let tmp := tmpNode s child
            match Insert tmp.2 tmp.1 index (batch_id + 1) max_batch_id value with
            | .error e => .error e
            | .ok r => mkCopy r.2 a (new_children.set bits r.1)
termination_by 13 - batch_id
decreasing_by
  unfold ImmutableVector.GetBitBatch at h
  split at h
  · rename_i hlt
    simp only [kBitsInBatch, kSizeBits] at hlt
    omega
  · cases h

/-- Member function `SetValue(v, index, batch_id, max_batch_id, value)` on the store.
At the last level the node is copied by `make_shared` and the copy is then assigned the
value. -/
def SetValue (s : Store T) (v : Option Nat) (index batch_id max_batch_id : Nat) (value : T) :
    Except Error (Option Nat × Store T) :=
  if batch_id = max_batch_id then
    match v with
    | none => .error .undefined
    | some a =>
      match s[a]? with
      | none => .error .undefined
      | some c =>
        let new_node := (s.alloc ⟨c.children, c.value⟩).1
        match (s.alloc ⟨c.children, c.value⟩).2.assignValue new_node value with
        | .error e => .error e
        | .ok s2 => .ok (some new_node, s2)
  else
    match h : ImmutableVector.GetBitBatch index batch_id with
    | .error e => .error e
    | .ok bits =>
      match v with
      | none => .error .undefined
      | some a =>
        match s[a]? with
        | none => .error .undefined
        | some c =>
          let new_children := c.children
          match c.children[bits]? with
          | none => .error .undefined
          | some child =>
            let tmp := tmpNode s child
            match SetValue tmp.2 tmp.1 index (batch_id + 1) max_batch_id value with
            | .error e => .error e
            | .ok r => mkCopy r.2 a (new_children.set bits r.1)
termination_by 13 - batch_id
decreasing_by
  unfold ImmutableVector.GetBitBatch at h
  split at h
  · rename_i hlt
    simp only [kBitsInBatch, kSizeBits] at hlt
    omega
  · cases h

/-- Member function `Erase(v, index, batch_id, max_batch_id)` on the store. -/
def Erase (s : Store T) (v : Option Nat) (index batch_id max_batch_id : Nat) :
    Except Error (Option Nat × Store T) :=
  if batch_id = max_batch_id then
    .ok (none, s)
  else
    match h : ImmutableVector.GetBitBatch index batch_id with
    | .error e => .error e
    | .ok bits =>
      match v with
      | none => .error .undefined
      | some a =>
        match s[a]? with
        | none => .error .undefined
        | some c =>
          let new_children := c.children
          match c.children[bits]? with
          | none => .error .undefined
          | some child =>
            let tmp := tmpNode s child
            match Erase tmp.2 tmp.1 index (batch_id + 1) max_batch_id with
            | .error e => .error e
            | .ok r => mkCopy r.2 a (new_children.set bits r.1)
termination_by 13 - batch_id
decreasing_by
  unfold ImmutableVector.GetBitBatch at h
  split at h
  · rename_i hlt
    simp only [kBitsInBatch, kSizeBits] at hlt
    omega
  · cases h

/-- Default constructor `ImmutableVector()`: allocates the root. -/
def new (s : Store T) : Handle × Store T :=
  (⟨some (s.alloc Cell.empty).1, 0⟩, (s.alloc Cell.empty).2)

/-- Member function `Size()`. -/
def Size (self : Handle) : Nat := self.size_

/-- Member function `Get(index)`. -/
def Get (s : Store T) (self : Handle) (index : Nat) : Except Error T :=
  GetValue s self.root_ index 0 (ImmutableVector.GetMaxBatchId index)

/-- Member function `Set(index, value)`. -/
def Set (s : Store T) (self : Handle) (index : Nat) (value : T) :
    Except Error (Handle × Store T) :=
  match SetValue s self.root_ index 0 (ImmutableVector.GetMaxBatchId index) value with
  | .error e => .error e
  | .ok r => .ok (⟨r.1, self.size_⟩, r.2)

/-- Member function `PushBack(value)`. -/
def PushBack (s : Store T) (self : Handle) (value : T) : Except Error (Handle × Store T) :=
  match Insert s self.root_ self.size_ 0 (ImmutableVector.GetMaxBatchId self.size_) value with
  | .error e => .error e
  | .ok r => .ok (⟨r.1, (self.size_ + 1) % 2 ^ kSizeBits⟩, r.2)

/-- Member function `PopBack()`. -/
def PopBack (s : Store T) (self : Handle) : Except Error (Handle × Store T) :=
  if self.size_ = 0 then .error .out_of_range
  else
    match Erase s self.root_ self.size_ 0 (ImmutableVector.GetMaxBatchId self.size_) with
    | .error e => .error e
    | .ok r => .ok (⟨r.1, self.size_ - 1⟩, r.2)

/-- The loop of the filling constructors: `for (el : l) result = result.PushBack(el)`. -/
def pushAll (s : Store T) (result : Handle) (l : List T) : Except Error (Handle × Store T) :=
  l.foldlM (fun r el => PushBack r.2 r.1 el) (result, s)

/-- Constructor `ImmutableVector(size_t count, const T& value)`: the member initialiser
allocates a root, the local `result` is default-constructed, `count` values are appended
to it, and `Copy(result)` overwrites both members. -/
def ofCount (s : Store T) (count : Nat) (value : T) : Except Error (Handle × Store T) :=
  let s0 := (s.alloc (Cell.empty : Cell T)).2
  match pushAll (new s0).2 (new s0).1 ((List.range count).map (fun _ => value)) with
  | .error e => .error e
  | .ok r => .ok (⟨r.1.root_, r.1.size_⟩, r.2)

/-- Constructor `ImmutableVector(Iterator first, Iterator last)`. -/
def ofRange (s : Store T) (l : List T) : Except Error (Handle × Store T) :=
  match pushAll (new s).2 (new s).1 l with
  | .error e => .error e
  | .ok r => .ok (⟨r.1.root_, r.1.size_⟩, r.2)

/-- Constructor `ImmutableVector(std::initializer_list<T> l)`. -/
def ofInitializerList (s : Store T) (l : List T) : Except Error (Handle × Store T) :=
  match pushAll (new s).2 (new s).1 l with
  | .error e => .error e
  | .ok r => .ok (⟨r.1.root_, r.1.size_⟩, r.2)

end Handle

/-! ## Walks along an explicit digit path

The recursive functions of the source consume one radix digit of the index per level.  The
definitions below take the list of digits as an argument instead; they are used to reason
about the source functions, to which they are connected by the unfolding lemmas. -/

namespace ImmutableVector

variable {T : Type}

/-- The node handed to the recursive call by `Insert`, `SetValue` and `Erase`: the child
itself, or a fresh empty node when the link is empty. -/
def tmpNode (child : Option (Node T)) : Option (Node T) :=
  match child with
  | none => some Node.empty
  | some c => some c

/-- The digits of `index` at levels `b, b + 1, ..., b + k - 1`. -/
def digitsFrom (index b : Nat) : Nat → List Nat
  | 0 => []
  | k + 1 => (index / 32 ^ b % 32) :: digitsFrom index (b + 1) k

/-- The digit path walked for `index`: `GetMaxBatchId index` digits, lowest first. -/
def path (index : Nat) : List Nat := digitsFrom index 0 (GetMaxBatchId index)

/-- Lookup along a digit path, as `GetValue` does it. -/
def walk : Option (Node T) → List Nat → Except Error T
  | v, [] =>
    match v with
    | none => .error .runtime_error
    | some n =>
      match n.value with
      | none => .error .runtime_error
      | some x => .ok x
  | v, d :: ds =>
    match v with
    | none => .error .runtime_error
    | some n =>
      match n.children[d]? with
      | none => .error .undefined
      | some child => walk child ds

/-- Path copying along a digit path, as `Insert`, `SetValue` and `Erase` do it; `leaf` is
what the function does at the last level. -/
def rebuild (leaf : Option (Node T) → Except Error (Option (Node T))) :
    Option (Node T) → List Nat → Except Error (Option (Node T))
  | v, [] => leaf v
  | v, d :: ds =>
    match v with
    | none => .error .undefined
    | some n =>
      match n.children[d]? with
      | none => .error .undefined
      | some child =>
        match rebuild leaf (tmpNode child) ds with
        | .error e => .error e
        | .ok r => .ok (some (Node.mk (n.children.set d r) n.value))

/-- Last level of `Insert`: a fresh node carrying the value. -/
def insertLeaf (value : T) (_v : Option (Node T)) : Except Error (Option (Node T)) :=
  .ok (some (Node.ofValue value))

/-- Last level of `SetValue`: a copy of the node with the value overwritten. -/
def setLeaf (value : T) (v : Option (Node T)) : Except Error (Option (Node T)) :=
  match v with
  | none => .error .undefined
  | some n => .ok (some (Node.mk n.children (some value)))

/-- Last level of `Erase`: the empty link. -/
def eraseLeaf (_v : Option (Node T)) : Except Error (Option (Node T)) :=
  .ok none

/-- The subtree found at the end of a digit path, empty links on the way being replaced by
fresh empty nodes as the rebuilding functions do. -/
def subtree : Option (Node T) → List Nat → Option (Node T)
  | v, [] => v
  | none, _ :: _ => none
  | some n, d :: ds =>
    match n.children[d]? with
    | none => none
    | some child => subtree (tmpNode child) ds

end ImmutableVector

/-! ## Well-formed trees and obtainable vectors -/

/-- A tree is well formed when every node in it has exactly 32 child links. -/
inductive Node.WF {T : Type} : Node T → Prop
  | mk (children : List (Option (Node T))) (value : Option T) :
      children.length = 32 → (∀ c, some c ∈ children → Node.WF c) →
      Node.WF (Node.mk children value)

namespace ImmutableVector

variable {T : Type}

/-- A link is well formed when it is empty or points to a well-formed tree. -/
def LinkWF (v : Option (Node T)) : Prop := ∀ n, v = some n → n.WF

/-- A handle is well formed when its root link is not empty, the tree under it is well
formed, and its size is a `size_t` value. -/
def WellFormed (v : ImmutableVector T) : Prop :=
  (∃ n, v.root_ = some n ∧ n.WF) ∧ v.size_ < 2 ^ 64

/-- The vectors obtainable through the public operations: the constructors, and `Set`,
`PushBack` and `PopBack` applied to an obtainable vector when they return.  Counts and
indices are `size_t` values. -/
inductive Reachable : ImmutableVector T → Prop
  | new : Reachable new
  | ofCount (count : Nat) (value : T) (v : ImmutableVector T) :
      count < 2 ^ 64 → ofCount count value = .ok v → Reachable v
  | ofRange (self : ImmutableVector T) (l : List T) (v : ImmutableVector T) :
      ofRange self l = .ok v → Reachable v
  | ofInitializerList (self : ImmutableVector T) (l : List T) (v : ImmutableVector T) :
      ofInitializerList self l = .ok v → Reachable v
  | set (v : ImmutableVector T) (index : Nat) (value : T) (w : ImmutableVector T) :
      Reachable v → index < 2 ^ 64 → v.Set index value = .ok w → Reachable w
  | pushBack (v : ImmutableVector T) (value : T) (w : ImmutableVector T) :
      Reachable v → v.PushBack value = .ok w → Reachable w
  | popBack (v w : ImmutableVector T) :
      Reachable v → v.PopBack = .ok w → Reachable w

end ImmutableVector

/-! ## The list model -/

namespace ImmutableVector

variable {T : Type}

/-- The mutating calls a client can make on a handle. -/
inductive Op (T : Type) where
  | pushBack (value : T)
  | set (index : Nat) (value : T)
  | popBack

/-- Apply one call to a handle. -/
def applyOp (v : ImmutableVector T) : Op T → Except Error (ImmutableVector T)
  | .pushBack x => v.PushBack x
  | .set i x => v.Set i x
  | .popBack => v.PopBack

/-- Apply a sequence of calls, each to the handle returned by the previous one. -/
def runOps (v : ImmutableVector T) (ops : List (Op T)) : Except Error (ImmutableVector T) :=
  ops.foldlM applyOp v

/-- The reference list: append, overwrite position `i`, drop the last element. -/
def modelOp (l : List T) : Op T → List T
  | .pushBack x => l ++ [x]
  | .set i x => l.set i x
  | .popBack => l.dropLast

/-- The reference list after a sequence of calls. -/
def modelOps (l : List T) (ops : List (Op T)) : List T :=
  ops.foldl modelOp l

/-- In-range use: `Set` only below the current size, `PopBack` only on a non-empty vector,
and the size stays a `size_t` value. -/
def InRange : List T → List (Op T) → Prop
  | _, [] => True
  | l, .pushBack x :: ops => l.length + 1 < 2 ^ 64 ∧ InRange (l ++ [x]) ops
  | l, .set i x :: ops => i < l.length ∧ InRange (l.set i x) ops
  | l, .popBack :: ops => 0 < l.length ∧ InRange l.dropLast ops

/-- The call is not `PopBack`. -/
def Op.isGrow : Op T → Bool
  | .popBack => false
  | _ => true

/-- The handle and the reference list agree: same size, same element at every position. -/
def Agree (v : ImmutableVector T) (l : List T) : Prop :=
  v.Size = l.length ∧ ∀ i (hi : i < l.length), v.Get i = .ok l[i]

end ImmutableVector

/-! ## Programs over the store, and the tree a stored node stands for -/

namespace Handle

variable {T : Type}

/-- Apply one mutating call to a handle in a store. -/
def applyOp (s : Store T) (h : Handle) : ImmutableVector.Op T → Except Error (Handle × Store T)
  | .pushBack x => PushBack s h x
  | .set i x => Set s h i x
  | .popBack => PopBack s h

/-- The arguments of the call are `size_t` values. -/
def opTyped : ImmutableVector.Op T → Prop
  | .set i _ => i < 2 ^ 64
  | _ => True

/-- Lookup along a digit path in the store, as `GetValue` does it. -/
def walk (s : Store T) : Option Nat → List Nat → Except Error T
  | v, [] =>
    match v with
    | none => .error .runtime_error
    | some a =>
      match s[a]? with
      | none => .error .undefined
      | some c =>
        match c.value with
        | none => .error .runtime_error
        | some x => .ok x
  | v, d :: ds =>
    match v with
    | none => .error .runtime_error
    | some a =>
      match s[a]? with
      | none => .error .undefined
      | some c =>
        match c.children[d]? with
        | none => .error .undefined
        | some child => walk s child ds

/-- Path copying along a digit path in the store; `leaf` is what the function does at the
last level. -/
def rebuild (leaf : Store T → Option Nat → Except Error (Option Nat × Store T)) :
    Store T → Option Nat → List Nat → Except Error (Option Nat × Store T)
  | s, v, [] => leaf s v
  | s, v, d :: ds =>
    match v with
    | none => .error .undefined
    | some a =>
      match s[a]? with
      | none => .error .undefined
      | some c =>
        match c.children[d]? with
        | none => .error .undefined
        | some child =>
          match rebuild leaf (tmpNode s child).2 (tmpNode s child).1 ds with
          | .error e => .error e
          | .ok r => mkCopy r.2 a (c.children.set d r.1)

/-- Last level of `Insert`. -/
def insertLeaf (value : T) (s : Store T) (_v : Option Nat) :
    Except Error (Option Nat × Store T) :=
  .ok (some (s.alloc (Cell.ofValue value)).1, (s.alloc (Cell.ofValue value)).2)

/-- Last level of `SetValue`. -/
def setLeaf (value : T) (s : Store T) (v : Option Nat) :
    Except Error (Option Nat × Store T) :=
  match v with
  | none => .error .undefined
  | some a =>
    match s[a]? with
    | none => .error .undefined
    | some c =>
      match (s.alloc ⟨c.children, c.value⟩).2.assignValue (s.alloc ⟨c.children, c.value⟩).1
          value with
      | .error e => .error e
      | .ok s2 => .ok (some (s.alloc ⟨c.children, c.value⟩).1, s2)

/-- Last level of `Erase`. -/
def eraseLeaf (s : Store T) (_v : Option Nat) : Except Error (Option Nat × Store T) :=
  .ok (none, s)

end Handle

/-- The link `p` in store `s` stands for the tree `t`: both are empty, or `p` is the address
of a stored node with the value of the root of `t`, whose child links stand for the
children of `t`, slot by slot. -/
inductive StandsFor {T : Type} (s : Store T) : Option Nat → Option (Node T) → Prop
  | null : StandsFor s none none
  | node (a : Nat) (c : Cell T) (cs : List (Option (Node T))) :
      s[a]? = some c → c.children.length = cs.length →
      (∀ (k : Nat) (p : Option Nat) (t : Option (Node T)),
        c.children[k]? = some p → cs[k]? = some t → StandsFor s p t) →
      StandsFor s (some a) (some (Node.mk cs c.value))

/-- The store-layer result `rS`, computed in store `s`, matches the tree-layer result `r`:
the same failure, or a link in an extension of `s` that keeps every node of `s` as it was
and in which the link stands for the tree. -/
def SimResult {T : Type} (s : Store T) (rS : Except Error (Option Nat × Store T))
    (r : Except Error (Option (Node T))) : Prop :=
  match r with
  | .error e => rS = .error e
  | .ok t => ∃ p s', rS = .ok (p, s') ∧ s <+: s' ∧ StandsFor s' p t

/-- A program state: the store, and the handles returned so far. -/
structure World (T : Type) where
  store : Store T
  handles : List Handle

/-- One public call that returns a handle: a constructor, or `Set`, `PushBack` or `PopBack`
on a handle returned earlier.  Counts and indices are `size_t` values. -/
inductive Step {T : Type} : World T → World T → Prop
  | create (w : World T) :
      Step w ⟨(Handle.new w.store).2, (Handle.new w.store).1 :: w.handles⟩
  | ofCount (w : World T) (count : Nat) (value : T) (h' : Handle) (s' : Store T) :
      count < 2 ^ 64 → Handle.ofCount w.store count value = .ok (h', s') →
      Step w ⟨s', h' :: w.handles⟩
  | ofRange (w : World T) (l : List T) (h' : Handle) (s' : Store T) :
      Handle.ofRange w.store l = .ok (h', s') → Step w ⟨s', h' :: w.handles⟩
  | ofInitializerList (w : World T) (l : List T) (h' : Handle) (s' : Store T) :
      Handle.ofInitializerList w.store l = .ok (h', s') → Step w ⟨s', h' :: w.handles⟩
  | call (w : World T) (h : Handle) (op : ImmutableVector.Op T) (h' : Handle)
      (s' : Store T) :
      h ∈ w.handles → Handle.opTyped op → Handle.applyOp w.store h op = .ok (h', s') →
      Step w ⟨s', h' :: w.handles⟩

/-- The program states obtainable from the initial one, with an empty store and no handle. -/
def Obtainable {T : Type} (w : World T) : Prop :=
  Relation.ReflTransGen Step ⟨[], []⟩ w

/-- The handle `h` in store `s` stands for the tree-layer vector `v`. -/
def Handle.Stands {T : Type} (s : Store T) (h : Handle) (v : ImmutableVector T) : Prop :=
  StandsFor s h.root_ v.root_ ∧ h.size_ = v.size_

/-- Every handle of the program state stands for an obtainable tree-layer vector. -/
def World.Good {T : Type} (w : World T) : Prop :=
  ∀ h ∈ w.handles, ∃ v, ImmutableVector.Reachable v ∧ Handle.Stands w.store h v

/-! ## Sample values -/

namespace ImmutableVector

/-- The vector `ImmutableVector<int>().PushBack(7)`: the root has the node of index 0 in
slot 0. -/
def sampleVector : ImmutableVector Nat :=
  ⟨some (Node.mk ((List.replicate 32 none).set 0 (some (Node.ofValue 7))) none), 1⟩

/-- A short in-range sequence of appends and overwrites. -/
def sampleOps : List (Op Nat) := [.pushBack 1, .pushBack 2, .set 0 5, .pushBack 3]

end ImmutableVector

/-- The program state after one call of the default constructor. -/
def sampleWorld : World Nat :=
  ⟨(Handle.new ([] : Store Nat)).2, [(Handle.new ([] : Store Nat)).1]⟩

/-- The program state after a `PushBack(7)` on the handle of `sampleWorld`: the call has
allocated the temporary empty node, the node of index 0 and the new root. -/
def sampleWorldNext : World Nat :=
  ⟨[Cell.empty, Cell.empty, Cell.ofValue 7, ⟨(List.replicate 32 none).set 0 (some 2), none⟩],
    [⟨some 3, 1⟩, ⟨some 0, 0⟩]⟩

/-! ## The addressing scheme as the source computes it -/

namespace ImmutableVector

/-- The digit sequence that `Get`, `Set` and `PushBack` walk for `index`:
`GetBitBatch(index, 0), ..., GetBitBatch(index, GetMaxBatchId(index) - 1)`. -/
def addressPath (index : Nat) : List (Except Error Nat) :=
  (List.range (GetMaxBatchId index)).map (fun level => GetBitBatch index level)

end ImmutableVector

namespace ImmutableVector

/-- The vector `ImmutableVector<int>().Set(32, 9)`: size 0, with the node of index 32 in
slot 1 of the node in slot 0 of the root. -/
def sampleSparse : ImmutableVector Nat :=
  ⟨some (Node.mk ((List.replicate 32 none).set 0
      (some (Node.mk ((List.replicate 32 none).set 1 (some (Node.mk (List.replicate 32 none)
        (some 9)))) none))) none), 0⟩

/-- The vector `sampleSparse.PushBack(5)`: slot 0 of the root holds a fresh node. -/
def sampleSparsePushed : ImmutableVector Nat :=
  ⟨some (Node.mk ((List.replicate 32 none).set 0 (some (Node.ofValue 5))) none), 1⟩

end ImmutableVector

namespace ImmutableVector

/-- A short in-range sequence with a `PopBack` followed by a `PushBack`. -/
def samplePopOps : List (Op Nat) :=
  [.pushBack 1, .pushBack 2, .popBack, .pushBack 3, .set 1 4]

end ImmutableVector

/-! ## Counting the descents of the recursive walks

Each function below is the function of the same name of the tree layer with a counter
added: the second component is the number of recursive calls made before the function
returned or failed. -/

namespace ImmutableVector

variable {T : Type}

/-- The function `GetValue` with the number of recursive calls it makes. -/
def GetValueCount (v : Option (Node T)) (index batch_id max_batch_id : Nat) :
    Except Error T × Nat :=
  if batch_id = max_batch_id then
    match v with
    | none => (.error .runtime_error, 0)
    | some n =>
      match n.value with
      | none => (.error .runtime_error, 0)
      | some x => (.ok x, 0)
  else
    match h : GetBitBatch index batch_id with
    | .error e => (.error e, 0)
    | .ok bits =>
      match v with
      | none => (.error .runtime_error, 0)
      | some n =>
        match n.children[bits]? with
        | none => (.error .undefined, 0)
        | some child =>
          let r := GetValueCount child index (batch_id + 1) max_batch_id
          (r.1, r.2 + 1)
termination_by 13 - batch_id
decreasing_by
  unfold GetBitBatch at h
  split at h
  · rename_i hlt
    simp only [kBitsInBatch, kSizeBits] at hlt
    omega
  · cases h

/-- The function `Insert` with the number of recursive calls it makes. -/
def InsertCount (v : Option (Node T)) (index batch_id max_batch_id : Nat) (value : T) :
    Except Error (Option (Node T)) × Nat :=
  if batch_id = max_batch_id then
    (.ok (some (Node.ofValue value)), 0)
  else
    match h : GetBitBatch index batch_id with
    | .error e => (.error e, 0)
    | .ok bits =>
      match v with
      | none => (.error .undefined, 0)
      | some n =>
        match n.children[bits]? with
        | none => (.error .undefined, 0)
        | some child =>
          let tmp_node : Option (Node T) :=
            match child with
            | none => some Node.empty
            | some c => some c
          let r := InsertCount tmp_node index (batch_id + 1) max_batch_id value
          match r.1 with
          | .error e => (.error e, r.2 + 1)
          | .ok t => (.ok (some (Node.mk (n.children.set bits t) n.value)), r.2 + 1)
termination_by 13 - batch_id
decreasing_by
  unfold GetBitBatch at h
  split at h
  · rename_i hlt
    simp only [kBitsInBatch, kSizeBits] at hlt
    omega
  · cases h

/-- The function `SetValue` with the number of recursive calls it makes. -/
def SetValueCount (v : Option (Node T)) (index batch_id max_batch_id : Nat) (value : T) :
    Except Error (Option (Node T)) × Nat :=
  if batch_id = max_batch_id then
    match v with
    | none => (.error .undefined, 0)
    | some n => (.ok (some (Node.mk n.children (some value))), 0)
  else
    match h : GetBitBatch index batch_id with
    | .error e => (.error e, 0)
    | .ok bits =>
      match v with
      | none => (.error .undefined, 0)
      | some n =>
        match n.children[bits]? with
        | none => (.error .undefined, 0)
        | some child =>
          let tmp_node : Option (Node T) :=
            match child with
            | none => some Node.empty
            | some c => some c
          let r := SetValueCount tmp_node index (batch_id + 1) max_batch_id value
          match r.1 with
          | .error e => (.error e, r.2 + 1)
          | .ok t => (.ok (some (Node.mk (n.children.set bits t) n.value)), r.2 + 1)
termination_by 13 - batch_id
decreasing_by
  unfold GetBitBatch at h
  split at h
  · rename_i hlt
    simp only [kBitsInBatch, kSizeBits] at hlt
    omega
  · cases h

/-- The function `Erase` with the number of recursive calls it makes. -/
def EraseCount (v : Option (Node T)) (index batch_id max_batch_id : Nat) :
    Except Error (Option (Node T)) × Nat :=
  if batch_id = max_batch_id then
    (.ok none, 0)
  else
    match h : GetBitBatch index batch_id with
    | .error e => (.error e, 0)
    | .ok bits =>
      match v with
      | none => (.error .undefined, 0)
      | some n =>
        match n.children[bits]? with
        | none => (.error .undefined, 0)
        | some child =>
          let tmp_node : Option (Node T) :=
            match child with
            | none => some Node.empty
            | some c => some c
          let r := EraseCount tmp_node index (batch_id + 1) max_batch_id
          match r.1 with
          | .error e => (.error e, r.2 + 1)
          | .ok t => (.ok (some (Node.mk (n.children.set bits t) n.value)), r.2 + 1)
termination_by 13 - batch_id
decreasing_by
  unfold GetBitBatch at h
  split at h
  · rename_i hlt
    simp only [kBitsInBatch, kSizeBits] at hlt
    omega
  · cases h

end ImmutableVector

/-! ## Unfolding the recursive walks -/

namespace ImmutableVector

variable {T : Type}

theorem GetBitBatch_eq {index batch_id : Nat} (h : batch_id < 13) :
    GetBitBatch index batch_id = .ok (index / 32 ^ batch_id % 32) := by
  have hlt : batch_id * kBitsInBatch < kSizeBits := by
    simp only [kBitsInBatch, kSizeBits]; omega
  have hmask : bitMask = 2 ^ 5 - 1 := by decide
  unfold GetBitBatch
  rw [if_pos hlt]
  simp only [hmask, Nat.and_pow_two_sub_one_eq_mod, Nat.shiftRight_eq_div_pow]
  simp only [kBitsInBatch]
  rw [Nat.mul_comm, Nat.pow_mul]

theorem GetBitBatch_undefined {index batch_id : Nat} (h : 13 ≤ batch_id) :
    GetBitBatch index batch_id = .error .undefined := by
  have hlt : ¬ batch_id * kBitsInBatch < kSizeBits := by
    simp only [kBitsInBatch, kSizeBits]; omega
  unfold GetBitBatch
  rw [if_neg hlt]

theorem GetValue_terminal (v : Option (Node T)) (index m : Nat) :
    GetValue v index m m =
      match v with
      | none => .error .runtime_error
      | some n =>
        match n.value with
        | none => .error .runtime_error
        | some x => .ok x := by
  rw [GetValue.eq_def, if_pos rfl]

theorem GetValue_step (v : Option (Node T)) {index b m : Nat} (hne : b ≠ m) (hb : b < 13) :
    GetValue v index b m =
      match v with
      | none => .error .runtime_error
      | some n =>
        match n.children[index / 32 ^ b % 32]? with
        | none => .error .undefined
        | some child => GetValue child index (b + 1) m := by
  rw [GetValue.eq_def, if_neg hne]
  split
  · rename_i e h
    rw [GetBitBatch_eq hb] at h
    cases h
  · rename_i bits h
    rw [GetBitBatch_eq hb] at h
    cases h
    rfl

end ImmutableVector

namespace ImmutableVector

variable {T : Type}

theorem Insert_terminal (v : Option (Node T)) (index m : Nat) (value : T) :
    Insert v index m m value = insertLeaf value v := by
  rw [Insert.eq_def, if_pos rfl]; rfl

theorem Insert_step (v : Option (Node T)) {index b m : Nat} (value : T) (hne : b ≠ m)
    (hb : b < 13) :
    Insert v index b m value =
      match v with
      | none => .error .undefined
      | some n =>
        match n.children[index / 32 ^ b % 32]? with
        | none => .error .undefined
        | some child =>
          match Insert (tmpNode child) index (b + 1) m value with
          | .error e => .error e
          | .ok r => .ok (some (Node.mk (n.children.set (index / 32 ^ b % 32) r) n.value)) := by
  rw [Insert.eq_def, if_neg hne]
  split
  · rename_i e h
    rw [GetBitBatch_eq hb] at h
    cases h
  · rename_i bits h
    rw [GetBitBatch_eq hb] at h
    cases h
    rfl

theorem SetValue_terminal (v : Option (Node T)) (index m : Nat) (value : T) :
    SetValue v index m m value = setLeaf value v := by
  rw [SetValue.eq_def, if_pos rfl]; rfl

theorem SetValue_step (v : Option (Node T)) {index b m : Nat} (value : T) (hne : b ≠ m)
    (hb : b < 13) :
    SetValue v index b m value =
      match v with
      | none => .error .undefined
      | some n =>
        match n.children[index / 32 ^ b % 32]? with
        | none => .error .undefined
        | some child =>
          match SetValue (tmpNode child) index (b + 1) m value with
          | .error e => .error e
          | .ok r => .ok (some (Node.mk (n.children.set (index / 32 ^ b % 32) r) n.value)) := by
  rw [SetValue.eq_def, if_neg hne]
  split
  · rename_i e h
    rw [GetBitBatch_eq hb] at h
    cases h
  · rename_i bits h
    rw [GetBitBatch_eq hb] at h
    cases h
    rfl

theorem Erase_terminal (v : Option (Node T)) (index m : Nat) :
    Erase v index m m = eraseLeaf v := by
  rw [Erase.eq_def, if_pos rfl]; rfl

theorem Erase_step (v : Option (Node T)) {index b m : Nat} (hne : b ≠ m) (hb : b < 13) :
    Erase v index b m =
      match v with
      | none => .error .undefined
      | some n =>
        match n.children[index / 32 ^ b % 32]? with
        | none => .error .undefined
        | some child =>
          match Erase (tmpNode child) index (b + 1) m with
          | .error e => .error e
          | .ok r => .ok (some (Node.mk (n.children.set (index / 32 ^ b % 32) r) n.value)) := by
  rw [Erase.eq_def, if_neg hne]
  split
  · rename_i e h
    rw [GetBitBatch_eq hb] at h
    cases h
  · rename_i bits h
    rw [GetBitBatch_eq hb] at h
    cases h
    rfl

/-- From level `b` to level `b + k`, `GetValue` is the walk along the digits of those
levels. -/
theorem GetValue_eq_walk (index : Nat) :
    ∀ (k b : Nat) (v : Option (Node T)), b + k ≤ 13 →
      GetValue v index b (b + k) = walk v (digitsFrom index b k) := by
  intro k
  induction k with
  | zero =>
    intro b v _
    rw [Nat.add_zero, GetValue_terminal]; rfl
  | succ k ih =>
    intro b v hb
    rw [GetValue_step v (by omega) (by omega)]
    cases v with
    | none => rfl
    | some n =>
      simp only [digitsFrom, walk]
      cases n.children[index / 32 ^ b % 32]? with
      | none => rfl
      | some child =>
        have := ih (b + 1) child (by omega)
        rw [show b + 1 + k = b + (k + 1) by omega] at this
        simpa using this

theorem Insert_eq_rebuild (index : Nat) (value : T) :
    ∀ (k b : Nat) (v : Option (Node T)), b + k ≤ 13 →
      Insert v index b (b + k) value = rebuild (insertLeaf value) v (digitsFrom index b k) := by
  intro k
  induction k with
  | zero =>
    intro b v _
    rw [Nat.add_zero, Insert_terminal]; rfl
  | succ k ih =>
    intro b v hb
    rw [Insert_step v value (by omega) (by omega)]
    cases v with
    | none => rfl
    | some n =>
      simp only [digitsFrom, rebuild]
      cases n.children[index / 32 ^ b % 32]? with
      | none => rfl
      | some child =>
        have := ih (b + 1) (tmpNode child) (by omega)
        rw [show b + 1 + k = b + (k + 1) by omega] at this
        simp only [this]

theorem SetValue_eq_rebuild (index : Nat) (value : T) :
    ∀ (k b : Nat) (v : Option (Node T)), b + k ≤ 13 →
      SetValue v index b (b + k) value = rebuild (setLeaf value) v (digitsFrom index b k) := by
  intro k
  induction k with
  | zero =>
    intro b v _
    rw [Nat.add_zero, SetValue_terminal]; rfl
  | succ k ih =>
    intro b v hb
    rw [SetValue_step v value (by omega) (by omega)]
    cases v with
    | none => rfl
    | some n =>
      simp only [digitsFrom, rebuild]
      cases n.children[index / 32 ^ b % 32]? with
      | none => rfl
      | some child =>
        have := ih (b + 1) (tmpNode child) (by omega)
        rw [show b + 1 + k = b + (k + 1) by omega] at this
        simp only [this]

theorem Erase_eq_rebuild (index : Nat) :
    ∀ (k b : Nat) (v : Option (Node T)), b + k ≤ 13 →
      Erase v index b (b + k) = rebuild eraseLeaf v (digitsFrom index b k) := by
  intro k
  induction k with
  | zero =>
    intro b v _
    rw [Nat.add_zero, Erase_terminal]; rfl
  | succ k ih =>
    intro b v hb
    rw [Erase_step v (by omega) (by omega)]
    cases v with
    | none => rfl
    | some n =>
      simp only [digitsFrom, rebuild]
      cases n.children[index / 32 ^ b % 32]? with
      | none => rfl
      | some child =>
        have := ih (b + 1) (tmpNode child) (by omega)
        rw [show b + 1 + k = b + (k + 1) by omega] at this
        simp only [this]

end ImmutableVector

/-! ## Arithmetic of the addressing scheme -/

namespace ImmutableVector

theorem GetMaxBatchIdLoop_eq (batch : Nat) :
    ∀ res, GetMaxBatchIdLoop batch res = res + (Nat.digits 32 batch).length := by
  induction batch using Nat.strong_induction_on with
  | _ batch ih =>
    intro res
    rw [GetMaxBatchIdLoop]
    by_cases h : batch = 0
    · simp [h]
    · rw [dif_neg h]
      have hlt : batch >>> kBitsInBatch < batch := by
        simp only [kBitsInBatch, Nat.shiftRight_eq_div_pow]
        exact Nat.div_lt_self (Nat.pos_of_ne_zero h) (by norm_num)
      rw [ih _ hlt, Nat.digits_def' (by norm_num) (Nat.pos_of_ne_zero h)]
      simp only [kBitsInBatch, Nat.shiftRight_eq_div_pow, List.length_cons]
      norm_num
      omega

theorem GetMaxBatchId_eq (n : Nat) : GetMaxBatchId n = max 1 (Nat.digits 32 n).length := by
  rw [GetMaxBatchId, GetMaxBatchIdLoop_eq, Nat.zero_add]

theorem GetMaxBatchId_pos (n : Nat) : 1 ≤ GetMaxBatchId n := by
  rw [GetMaxBatchId_eq]; exact le_max_left _ _

theorem lt_pow_GetMaxBatchId (n : Nat) : n < 32 ^ GetMaxBatchId n := by
  rw [GetMaxBatchId_eq]
  calc n < 32 ^ (Nat.digits 32 n).length := Nat.lt_base_pow_length_digits (by norm_num)
    _ ≤ 32 ^ max 1 (Nat.digits 32 n).length :=
      Nat.pow_le_pow_right (by norm_num) (le_max_right _ _)

theorem GetMaxBatchId_le {n : Nat} (h : n < 2 ^ 64) : GetMaxBatchId n ≤ 13 := by
  rw [GetMaxBatchId_eq]
  by_cases h0 : n = 0
  · simp [h0]
  · have hle := Nat.base_pow_length_digits_le 32 n (by norm_num) h0
    apply max_le (by norm_num)
    by_contra hcon
    have h14 : 14 ≤ (Nat.digits 32 n).length := by omega
    have : 32 ^ 14 ≤ 32 ^ (Nat.digits 32 n).length := Nat.pow_le_pow_right (by norm_num) h14
    norm_num at h this hle
    omega

theorem digitsFrom_length (n : Nat) : ∀ k b, (digitsFrom n b k).length = k := by
  intro k
  induction k with
  | zero => intro b; rfl
  | succ k ih => intro b; simp [digitsFrom, ih]

theorem digitsFrom_lt (n : Nat) : ∀ k b, ∀ d ∈ digitsFrom n b k, d < 32 := by
  intro k
  induction k with
  | zero => intro b d hd; simp [digitsFrom] at hd
  | succ k ih =>
    intro b d hd
    simp only [digitsFrom, List.mem_cons] at hd
    rcases hd with rfl | hd
    · exact Nat.mod_lt _ (by norm_num)
    · exact ih _ d hd

theorem ofDigits_digitsFrom (n : Nat) :
    ∀ k b, Nat.ofDigits 32 (digitsFrom n b k) = n / 32 ^ b % 32 ^ k := by
  intro k
  induction k with
  | zero => intro b; simp [digitsFrom, Nat.mod_one]
  | succ k ih =>
    intro b
    simp only [digitsFrom, Nat.ofDigits_cons, ih]
    rw [pow_succ, ← Nat.div_div_eq_div_mul, pow_succ', Nat.mod_mul]

theorem path_length (n : Nat) : (path n).length = GetMaxBatchId n :=
  digitsFrom_length n _ _

theorem path_lt (n : Nat) : ∀ d ∈ path n, d < 32 :=
  digitsFrom_lt n _ _

theorem path_ne_nil (n : Nat) : path n ≠ [] := by
  intro h
  have := path_length n
  rw [h] at this
  have := GetMaxBatchId_pos n
  simp at *
  omega

theorem ofDigits_path (n : Nat) : Nat.ofDigits 32 (path n) = n := by
  rw [path, ofDigits_digitsFrom, pow_zero, Nat.div_one]
  exact Nat.mod_eq_of_lt (lt_pow_GetMaxBatchId n)

theorem path_injective {i j : Nat} (h : path i = path j) : i = j := by
  rw [← ofDigits_path i, ← ofDigits_path j, h]

theorem path_prefix_le {i j : Nat} (h : path i <+: path j) : i ≤ j := by
  obtain ⟨r, hr⟩ := h
  rw [← ofDigits_path i, ← ofDigits_path j, ← hr, Nat.ofDigits_append]
  exact Nat.le_add_right _ _

end ImmutableVector

/-! ## Path copying: what a rebuilt tree answers -/

namespace ImmutableVector

variable {T : Type}

theorem WF_empty : (Node.empty : Node T).WF := by
  refine Node.WF.mk _ _ (by simp [kBitsInBatch]) ?_
  intro c hc
  simp [List.mem_replicate] at hc

theorem WF_ofValue (x : T) : (Node.ofValue x).WF := by
  refine Node.WF.mk _ _ (by simp [kBitsInBatch]) ?_
  intro c hc
  simp [List.mem_replicate] at hc

theorem WF_length {n : Node T} (h : n.WF) : n.children.length = 32 := by
  cases h with
  | mk cs v hl _ => exact hl

theorem WF_child {n : Node T} (h : n.WF) {d : Nat} {c : Option (Node T)}
    (hc : n.children[d]? = some c) : LinkWF c := by
  cases h with
  | mk cs v hl hch =>
    intro m hm
    subst hm
    exact hch m (List.getElem?_mem hc)

theorem WF_get {n : Node T} (h : n.WF) {d : Nat} (hd : d < 32) :
    ∃ c, n.children[d]? = some c ∧ LinkWF c := by
  have hl := WF_length h
  have : d < n.children.length := by omega
  exact ⟨n.children[d], List.getElem?_eq_getElem this,
    WF_child h (List.getElem?_eq_getElem this)⟩

theorem WF_set {n : Node T} (h : n.WF) (d : Nat) {r : Option (Node T)} (hr : LinkWF r)
    (val : Option T) : (Node.mk (n.children.set d r) val).WF := by
  cases h with
  | mk cs v hl hch =>
    refine Node.WF.mk _ _ (by simpa [Node.children] using hl) ?_
    intro c hc
    simp only [Node.children] at hc
    rcases List.mem_or_eq_of_mem_set hc with hmem | heq
    · exact hch c hmem
    · exact hr c heq.symm

theorem LinkWF_tmpNode {c : Option (Node T)} (h : LinkWF c) : LinkWF (tmpNode c) := by
  cases c with
  | none => intro n hn; cases hn; exact WF_empty
  | some m => exact h

theorem tmpNode_eq_some (c : Option (Node T)) : ∃ m, tmpNode c = some m := by
  cases c with
  | none => exact ⟨_, rfl⟩
  | some m => exact ⟨m, rfl⟩

@[simp] theorem children_mk (c : List (Option (Node T))) (v : Option T) :
    (Node.mk c v).children = c := rfl

@[simp] theorem value_mk (c : List (Option (Node T))) (v : Option T) :
    (Node.mk c v).value = v := rfl

theorem subtree_nil (v : Option (Node T)) : subtree v [] = v := by
  cases v <;> rfl

theorem walk_none (q : List Nat) : walk (none : Option (Node T)) q = .error .runtime_error := by
  cases q <;> rfl

theorem walk_empty {q : List Nat} (hq : ∀ d ∈ q, d < 32) :
    walk (some (Node.empty : Node T)) q = .error .runtime_error := by
  cases q with
  | nil => rfl
  | cons d ds =>
    have hd : d < 32 := hq d (List.mem_cons_self _ _)
    have : (Node.empty : Node T).children[d]? = some none := by
      have h32 : 1 <<< kBitsInBatch = 32 := by decide
      simp only [Node.empty, Node.children, h32]
      exact List.getElem?_replicate_of_lt hd
    simp only [walk, this, walk_none]

theorem walk_tmpNode (c : Option (Node T)) {q : List Nat} (hq : ∀ d ∈ q, d < 32) :
    walk (tmpNode c) q = walk c q := by
  cases c with
  | none => rw [walk_none]; exact walk_empty hq
  | some m => rfl

end ImmutableVector

namespace ImmutableVector

variable {T : Type}

/-- One level of `rebuild`, on a node whose addressed child slot exists. -/
theorem rebuild_cons {leaf : Option (Node T) → Except Error (Option (Node T))} {n : Node T}
    {d : Nat} {child : Option (Node T)} (hc : n.children[d]? = some child) (ds : List Nat) :
    rebuild leaf (some n) (d :: ds) =
      match rebuild leaf (tmpNode child) ds with
      | .error e => .error e
      | .ok r => .ok (some (Node.mk (n.children.set d r) n.value)) := by
  simp only [rebuild, hc]

/-- A successful `rebuild` along a non-empty path started at a node, found the addressed
child slot, and rebuilt the subtree below it. -/
theorem rebuild_cons_ok {leaf : Option (Node T) → Except Error (Option (Node T))}
    {v r : Option (Node T)} {d : Nat} {ds : List Nat} (h : rebuild leaf v (d :: ds) = .ok r) :
    ∃ n child r', v = some n ∧ n.children[d]? = some child ∧
      rebuild leaf (tmpNode child) ds = .ok r' ∧
      r = some (Node.mk (n.children.set d r') n.value) := by
  cases v with
  | none => simp [rebuild] at h
  | some n =>
    cases hc : n.children[d]? with
    | none => simp [rebuild, hc] at h
    | some child =>
      rw [rebuild_cons hc] at h
      cases hr : rebuild leaf (tmpNode child) ds with
      | error e => simp [hr] at h
      | ok r' =>
        simp only [hr, Except.ok.injEq] at h
        exact ⟨n, child, r', rfl, hc, hr, h.symm⟩

/-- Rebuilding succeeds on a well-formed tree when the digits are in range and the last
level succeeds on well-formed nodes; the result is well formed. -/
theorem rebuild_ok {leaf : Option (Node T) → Except Error (Option (Node T))}
    (hleaf : ∀ n : Node T, n.WF → ∃ r, leaf (some n) = .ok r ∧ LinkWF r) :
    ∀ (p : List Nat) (n : Node T), n.WF → (∀ d ∈ p, d < 32) →
      ∃ r, rebuild leaf (some n) p = .ok r ∧ LinkWF r ∧ (p ≠ [] → ∃ m, r = some m) := by
  intro p
  induction p with
  | nil =>
    intro n hn _
    obtain ⟨r, hr, hwf⟩ := hleaf n hn
    exact ⟨r, hr, hwf, fun h => absurd rfl h⟩
  | cons d ds ih =>
    intro n hn hp
    obtain ⟨child, hc, hcwf⟩ := WF_get hn (hp d (List.mem_cons_self _ _))
    obtain ⟨m, hm⟩ := tmpNode_eq_some child
    have hmwf : m.WF := LinkWF_tmpNode hcwf m hm
    obtain ⟨r', hr', hwf', _⟩ := ih m hmwf (fun e he => hp e (List.mem_cons_of_mem _ he))
    refine ⟨some (Node.mk (n.children.set d r') n.value), ?_, ?_, fun _ => ⟨_, rfl⟩⟩
    · rw [rebuild_cons hc, hm, hr']
    · intro k hk
      cases hk
      exact WF_set hn d hwf' _

/-- Frame property of path copying: a walk that leaves the rebuilt path, or stops before
its end, finds what it found before. -/
theorem walk_rebuild_frame {leaf : Option (Node T) → Except Error (Option (Node T))} :
    ∀ (p q : List Nat) (v r : Option (Node T)), rebuild leaf v p = .ok r →
      ¬ p <+: q → (∀ d ∈ q, d < 32) → walk r q = walk v q := by
  intro p
  induction p with
  | nil => intro q v r _ hpre _; exact absurd List.nil_prefix hpre
  | cons d ds ih =>
    intro q v r h hpre hq
    obtain ⟨n, child, r', rfl, hc, hr', rfl⟩ := rebuild_cons_ok h
    cases q with
    | nil => rfl
    | cons e es =>
      have hdlt : d < n.children.length := by
        rcases List.getElem?_eq_some.1 hc with ⟨hlt, _⟩
        exact hlt
      by_cases hde : e = d
      · subst hde
        have hpre' : ¬ ds <+: es := by
          intro hcon
          exact hpre ((List.prefix_cons_inj e).2 hcon)
        have hes : ∀ x ∈ es, x < 32 := fun x hx => hq x (List.mem_cons_of_mem _ hx)
        have h1 : (n.children.set e r')[e]? = some r' := List.getElem?_set_self hdlt
        simp only [walk, children_mk, h1, hc]
        rw [ih es (tmpNode child) r' hr' hpre' hes, walk_tmpNode child hes]
      · have h1 : (n.children.set d r')[e]? = n.children[e]? :=
          List.getElem?_set_ne (fun hcon => hde hcon.symm)
        simp only [walk, children_mk, h1]

/-- At and below the end of the rebuilt path, a walk sees what the last level produced from
the subtree that was there. -/
theorem walk_rebuild_at {leaf : Option (Node T) → Except Error (Option (Node T))} :
    ∀ (p : List Nat) (v r : Option (Node T)), rebuild leaf v p = .ok r →
      ∃ t, leaf (subtree v p) = .ok t ∧ ∀ q, walk r (p ++ q) = walk t q := by
  intro p
  induction p with
  | nil => intro v r h; exact ⟨r, by rw [subtree_nil]; exact h, fun q => rfl⟩
  | cons d ds ih =>
    intro v r h
    obtain ⟨n, child, r', rfl, hc, hr', rfl⟩ := rebuild_cons_ok h
    obtain ⟨t, ht, hwalk⟩ := ih (tmpNode child) r' hr'
    refine ⟨t, ?_, ?_⟩
    · simpa only [subtree, hc] using ht
    · intro q
      have hdlt : d < n.children.length := by
        rcases List.getElem?_eq_some.1 hc with ⟨hlt, _⟩
        exact hlt
      have h1 : (n.children.set d r')[d]? = some r' := List.getElem?_set_self hdlt
      simp only [List.cons_append, walk, children_mk, h1]
      exact hwalk q

/-- Walking from the subtree at the end of a path is walking the concatenated path. -/
theorem walk_subtree :
    ∀ (p q : List Nat) (v : Option (Node T)), LinkWF v → (∀ d ∈ p, d < 32) →
      (∀ d ∈ q, d < 32) → walk (subtree v p) q = walk v (p ++ q) := by
  intro p
  induction p with
  | nil => intro q v _ _ _; rw [subtree_nil]; rfl
  | cons d ds ih =>
    intro q v hv hp hq
    cases v with
    | none => simp only [subtree, walk_none]
    | some n =>
      obtain ⟨child, hc, hcwf⟩ := WF_get (hv n rfl) (hp d (List.mem_cons_self _ _))
      have hds : ∀ x ∈ ds, x < 32 := fun x hx => hp x (List.mem_cons_of_mem _ hx)
      have happ : ∀ x ∈ ds ++ q, x < 32 := by
        intro x hx
        rcases List.mem_append.1 hx with hx | hx
        · exact hds x hx
        · exact hq x hx
      have e1 : subtree (some n) (d :: ds) = subtree (tmpNode child) ds := by
        simp only [subtree, hc]
      have e2 : walk (some n) (d :: (ds ++ q)) = walk child (ds ++ q) := by
        simp only [walk, hc]
      rw [List.cons_append, e1, e2, ih q (tmpNode child) (LinkWF_tmpNode hcwf) hds hq,
        walk_tmpNode child happ]

end ImmutableVector

/-! ## The public operations on well-formed handles -/

namespace ImmutableVector

variable {T : Type}

theorem Get_eq_walk (v : ImmutableVector T) {i : Nat} (hi : i < 2 ^ 64) :
    v.Get i = walk v.root_ (path i) := by
  have := GetValue_eq_walk i (GetMaxBatchId i) 0 v.root_ (by have := GetMaxBatchId_le hi; omega)
  rw [Nat.zero_add] at this
  exact this

theorem SetValue_eq_path (v : Option (Node T)) {i : Nat} (hi : i < 2 ^ 64) (x : T) :
    SetValue v i 0 (GetMaxBatchId i) x = rebuild (setLeaf x) v (path i) := by
  have := SetValue_eq_rebuild i x (GetMaxBatchId i) 0 v (by have := GetMaxBatchId_le hi; omega)
  rw [Nat.zero_add] at this
  exact this

theorem Insert_eq_path (v : Option (Node T)) {i : Nat} (hi : i < 2 ^ 64) (x : T) :
    Insert v i 0 (GetMaxBatchId i) x = rebuild (insertLeaf x) v (path i) := by
  have := Insert_eq_rebuild i x (GetMaxBatchId i) 0 v (by have := GetMaxBatchId_le hi; omega)
  rw [Nat.zero_add] at this
  exact this

theorem Erase_eq_path (v : Option (Node T)) {i : Nat} (hi : i < 2 ^ 64) :
    Erase v i 0 (GetMaxBatchId i) = rebuild eraseLeaf v (path i) := by
  have := Erase_eq_rebuild i (GetMaxBatchId i) 0 v (by have := GetMaxBatchId_le hi; omega)
  rw [Nat.zero_add] at this
  exact this

theorem setLeaf_ok (x : T) (n : Node T) (hn : n.WF) :
    ∃ r, setLeaf x (some n) = .ok r ∧ LinkWF r := by
  refine ⟨some (Node.mk n.children (some x)), rfl, ?_⟩
  intro m hm
  cases hm
  cases hn with
  | mk cs v hl hch => exact Node.WF.mk _ _ hl hch

theorem insertLeaf_ok (x : T) (n : Node T) (_hn : n.WF) :
    ∃ r, insertLeaf x (some n) = .ok r ∧ LinkWF r := by
  refine ⟨some (Node.ofValue x), rfl, ?_⟩
  intro m hm
  cases hm
  exact WF_ofValue x

theorem eraseLeaf_ok (n : Node T) (_hn : n.WF) :
    ∃ r, eraseLeaf (some n) = .ok r ∧ LinkWF r := by
  refine ⟨none, rfl, ?_⟩
  intro m hm
  cases hm

theorem WellFormed_new : WellFormed (new : ImmutableVector T) :=
  ⟨⟨Node.empty, rfl, WF_empty⟩, by norm_num [new]⟩

theorem WellFormed.linkWF {v : ImmutableVector T} (hv : WellFormed v) : LinkWF v.root_ := by
  obtain ⟨⟨n, hn, hwf⟩, _⟩ := hv
  intro m hm
  rw [hn] at hm
  cases hm
  exact hwf

/-- On a well-formed handle `Set` returns, keeps the size, and returns a well-formed
handle. -/
theorem Set_ok {v : ImmutableVector T} (hv : WellFormed v) {i : Nat} (hi : i < 2 ^ 64) (x : T) :
    ∃ w, v.Set i x = .ok w ∧ w.size_ = v.size_ ∧ WellFormed w := by
  obtain ⟨⟨n, hn, hwf⟩, hs⟩ := hv
  obtain ⟨r, hr, hrwf, hrsome⟩ := rebuild_ok (setLeaf_ok x) (path i) n hwf (path_lt i)
  obtain ⟨m, rfl⟩ := hrsome (path_ne_nil i)
  refine ⟨⟨some m, v.size_⟩, ?_, rfl, ⟨⟨m, rfl, hrwf m rfl⟩, hs⟩⟩
  simp only [Set, SetValue_eq_path _ hi, hn, hr]

/-- What `Set` returns, in terms of path copying. -/
theorem Set_eq_ok {v w : ImmutableVector T} {i : Nat} (hi : i < 2 ^ 64) {x : T}
    (h : v.Set i x = .ok w) :
    rebuild (setLeaf x) v.root_ (path i) = .ok w.root_ ∧ w.size_ = v.size_ := by
  simp only [Set, SetValue_eq_path _ hi] at h
  cases hr : rebuild (setLeaf x) v.root_ (path i) with
  | error e => simp [hr] at h
  | ok r =>
    simp only [hr, Except.ok.injEq] at h
    subst h
    exact ⟨rfl, rfl⟩

theorem Get_Set_self {v w : ImmutableVector T} {i : Nat} (hi : i < 2 ^ 64) {x : T}
    (h : v.Set i x = .ok w) : w.Get i = .ok x := by
  obtain ⟨hr, _⟩ := Set_eq_ok hi h
  obtain ⟨t, ht, hwalk⟩ := walk_rebuild_at (path i) v.root_ w.root_ hr
  rw [Get_eq_walk w hi]
  have := hwalk []
  rw [List.append_nil] at this
  rw [this]
  cases hsub : subtree v.root_ (path i) with
  | none => simp [hsub, setLeaf] at ht
  | some u =>
    simp only [hsub, setLeaf, Except.ok.injEq] at ht
    subst ht
    rfl

theorem Get_Set_other {v w : ImmutableVector T} (hv : WellFormed v) {i j : Nat}
    (hi : i < 2 ^ 64) (hj : j < 2 ^ 64) (hne : j ≠ i) {x : T} (h : v.Set i x = .ok w) :
    w.Get j = v.Get j := by
  obtain ⟨hr, _⟩ := Set_eq_ok hi h
  rw [Get_eq_walk w hj, Get_eq_walk v hj]
  by_cases hpre : path i <+: path j
  · obtain ⟨q, hq⟩ := hpre
    obtain ⟨t, ht, hwalk⟩ := walk_rebuild_at (path i) v.root_ w.root_ hr
    have hqlt : ∀ d ∈ q, d < 32 := fun d hd =>
      path_lt j d (by rw [← hq]; exact List.mem_append_right _ hd)
    rw [← hq, hwalk q, ← walk_subtree (path i) q v.root_ hv.linkWF (path_lt i) hqlt]
    cases hsub : subtree v.root_ (path i) with
    | none => simp [hsub, setLeaf] at ht
    | some u =>
      simp only [hsub, setLeaf, Except.ok.injEq] at ht
      subst ht
      cases q with
      | nil =>
        rw [List.append_nil] at hq
        exact absurd (path_injective hq).symm hne
      | cons e es => rfl
  · exact walk_rebuild_frame (path i) (path j) v.root_ w.root_ hr hpre (path_lt j)

/-- On a well-formed handle `PushBack` returns; the size grows by one in `size_t`. -/
theorem PushBack_ok {v : ImmutableVector T} (hv : WellFormed v) (x : T) :
    ∃ w, v.PushBack x = .ok w ∧ w.size_ = (v.size_ + 1) % 2 ^ 64 ∧ WellFormed w := by
  obtain ⟨⟨n, hn, hwf⟩, hs⟩ := hv
  obtain ⟨r, hr, hrwf, hrsome⟩ :=
    rebuild_ok (insertLeaf_ok x) (path v.size_) n hwf (path_lt v.size_)
  obtain ⟨m, rfl⟩ := hrsome (path_ne_nil _)
  refine ⟨⟨some m, (v.size_ + 1) % 2 ^ 64⟩, ?_, rfl,
    ⟨⟨m, rfl, hrwf m rfl⟩, Nat.mod_lt _ (by norm_num)⟩⟩
  simp only [PushBack, Insert_eq_path _ hs, hn, hr, kSizeBits]

theorem PushBack_eq_ok {v w : ImmutableVector T} (hv : WellFormed v) {x : T}
    (h : v.PushBack x = .ok w) :
    rebuild (insertLeaf x) v.root_ (path v.size_) = .ok w.root_ ∧
      w.size_ = (v.size_ + 1) % 2 ^ 64 := by
  simp only [PushBack, Insert_eq_path _ hv.2] at h
  cases hr : rebuild (insertLeaf x) v.root_ (path v.size_) with
  | error e => simp [hr] at h
  | ok r =>
    simp only [hr, Except.ok.injEq] at h
    subst h
    exact ⟨rfl, rfl⟩

theorem Get_PushBack_self {v w : ImmutableVector T} (hv : WellFormed v) {x : T}
    (h : v.PushBack x = .ok w) : w.Get v.size_ = .ok x := by
  obtain ⟨hr, _⟩ := PushBack_eq_ok hv h
  obtain ⟨t, ht, hwalk⟩ := walk_rebuild_at (path v.size_) v.root_ w.root_ hr
  rw [Get_eq_walk w hv.2]
  have := hwalk []
  rw [List.append_nil] at this
  rw [this]
  simp only [insertLeaf, Except.ok.injEq] at ht
  subst ht
  rfl

theorem Get_PushBack_other {v w : ImmutableVector T} (hv : WellFormed v) {j : Nat}
    (hj : j < 2 ^ 64) (hpre : ¬ path v.size_ <+: path j) {x : T}
    (h : v.PushBack x = .ok w) : w.Get j = v.Get j := by
  obtain ⟨hr, _⟩ := PushBack_eq_ok hv h
  rw [Get_eq_walk w hj, Get_eq_walk v hj]
  exact walk_rebuild_frame (path v.size_) (path j) v.root_ w.root_ hr hpre (path_lt j)

theorem Get_PushBack_lt {v w : ImmutableVector T} (hv : WellFormed v) {j : Nat}
    (hj : j < v.size_) {x : T} (h : v.PushBack x = .ok w) : w.Get j = v.Get j :=
  Get_PushBack_other hv (lt_trans hj hv.2)
    (fun hpre => absurd (path_prefix_le hpre) (by omega)) h

/-- On a well-formed non-empty handle `PopBack` returns; the size shrinks by one. -/
theorem PopBack_ok {v : ImmutableVector T} (hv : WellFormed v) (hne : v.size_ ≠ 0) :
    ∃ w, v.PopBack = .ok w ∧ w.size_ = v.size_ - 1 ∧ WellFormed w := by
  obtain ⟨⟨n, hn, hwf⟩, hs⟩ := hv
  obtain ⟨r, hr, hrwf, hrsome⟩ :=
    rebuild_ok eraseLeaf_ok (path v.size_) n hwf (path_lt v.size_)
  obtain ⟨m, rfl⟩ := hrsome (path_ne_nil _)
  refine ⟨⟨some m, v.size_ - 1⟩, ?_, rfl, ⟨⟨m, rfl, hrwf m rfl⟩, ?_⟩⟩
  · simp only [PopBack, if_neg hne, Erase_eq_path _ hs, hn, hr]
  · show v.size_ - 1 < 2 ^ 64
    omega

theorem PopBack_eq_ok {v w : ImmutableVector T} (hv : WellFormed v) (h : v.PopBack = .ok w) :
    v.size_ ≠ 0 ∧ rebuild eraseLeaf v.root_ (path v.size_) = .ok w.root_ ∧
      w.size_ = v.size_ - 1 := by
  by_cases hne : v.size_ = 0
  · simp [PopBack, hne] at h
  · simp only [PopBack, if_neg hne, Erase_eq_path _ hv.2] at h
    cases hr : rebuild eraseLeaf v.root_ (path v.size_) with
    | error e => simp [hr] at h
    | ok r =>
      simp only [hr, Except.ok.injEq] at h
      subst h
      exact ⟨hne, rfl, rfl⟩

end ImmutableVector

/-! ## Sequences of calls -/

namespace ImmutableVector

variable {T : Type}

theorem pushAll_nil (v : ImmutableVector T) : pushAll v [] = .ok v := rfl

theorem pushAll_cons (v : ImmutableVector T) (x : T) (xs : List T) :
    pushAll v (x :: xs) =
      match v.PushBack x with
      | .error e => .error e
      | .ok w => pushAll w xs := by
  simp only [pushAll, List.foldlM_cons]
  cases v.PushBack x <;> rfl

theorem runOps_nil (v : ImmutableVector T) : runOps v [] = .ok v := rfl

theorem runOps_cons (v : ImmutableVector T) (op : Op T) (ops : List (Op T)) :
    runOps v (op :: ops) =
      match applyOp v op with
      | .error e => .error e
      | .ok w => runOps w ops := by
  simp only [runOps, List.foldlM_cons]
  cases applyOp v op <;> rfl

/-- Appending never fails on a well-formed handle and keeps it well formed. -/
theorem pushAll_wellFormed :
    ∀ (xs : List T) (v : ImmutableVector T), WellFormed v →
      ∃ w, pushAll v xs = .ok w ∧ WellFormed w := by
  intro xs
  induction xs with
  | nil => intro v hv; exact ⟨v, rfl, hv⟩
  | cons x xs ih =>
    intro v hv
    obtain ⟨w1, h1, _, hw1⟩ := PushBack_ok hv x
    obtain ⟨w, hw, hwf⟩ := ih w1 hw1
    exact ⟨w, by rw [pushAll_cons, h1]; exact hw, hwf⟩

/-- Appending `xs` to a well-formed handle: the size grows by the length, the old slots
answer as before, and the new slots hold the elements of `xs` in order. -/
theorem pushAll_spec :
    ∀ (xs : List T) (v : ImmutableVector T), WellFormed v → v.size_ + xs.length < 2 ^ 64 →
      ∃ w, pushAll v xs = .ok w ∧ WellFormed w ∧ w.size_ = v.size_ + xs.length ∧
        (∀ j, j < v.size_ → w.Get j = v.Get j) ∧
        (∀ k (hk : k < xs.length), w.Get (v.size_ + k) = .ok xs[k]) := by
  intro xs
  induction xs with
  | nil =>
    intro v hv _
    exact ⟨v, rfl, hv, rfl, fun _ _ => rfl, fun k hk => absurd hk (Nat.not_lt_zero k)⟩
  | cons x xs ih =>
    intro v hv hlen
    simp only [List.length_cons] at hlen
    obtain ⟨w1, h1, hs1, hw1⟩ := PushBack_ok hv x
    have hs1' : w1.size_ = v.size_ + 1 := by
      rw [hs1]; exact Nat.mod_eq_of_lt (by omega)
    obtain ⟨w, hw, hwf, hsz, hold, hnew⟩ := ih w1 hw1 (by rw [hs1']; omega)
    refine ⟨w, by rw [pushAll_cons, h1]; exact hw, hwf, ?_, ?_, ?_⟩
    · rw [hsz, hs1', List.length_cons]; omega
    · intro j hj
      rw [hold j (by omega)]
      exact Get_PushBack_lt hv hj h1
    · intro k hk
      cases k with
      | zero =>
        rw [Nat.add_zero, hold v.size_ (by omega)]
        exact Get_PushBack_self hv h1
      | succ k =>
        have hk' : k < xs.length := by simpa using hk
        have := hnew k hk'
        rw [hs1'] at this
        rw [show v.size_ + (k + 1) = v.size_ + 1 + k by omega, this]
        rfl

theorem Copy_eq (self other : ImmutableVector T) : self.Copy other = other := rfl

theorem ofCount_eq (count : Nat) (value : T) :
    ofCount count value = pushAll new (List.replicate count value) := by
  have hmap : (List.range count).map (fun _ => value) = List.replicate count value := by
    apply List.ext_getElem
    · simp
    · intro n h1 h2
      simp
  simp only [ofCount, hmap, Copy_eq]
  cases pushAll new (List.replicate count value) <;> rfl

theorem ofRange_eq (self : ImmutableVector T) (l : List T) : ofRange self l = pushAll new l := by
  simp only [ofRange, Copy_eq]
  cases pushAll new l <;> rfl

theorem ofInitializerList_eq (self : ImmutableVector T) (l : List T) :
    ofInitializerList self l = pushAll new l := by
  simp only [ofInitializerList, Copy_eq]
  cases pushAll new l <;> rfl

/-- Every obtainable vector is well formed. -/
theorem Reachable.wellFormed {v : ImmutableVector T} (h : Reachable v) : WellFormed v := by
  induction h with
  | new => exact WellFormed_new
  | ofCount count value v _ hv =>
    rw [ofCount_eq] at hv
    obtain ⟨w, hw, hwf⟩ :=
      pushAll_wellFormed (List.replicate count value) ImmutableVector.new WellFormed_new
    rw [hw] at hv
    cases hv
    exact hwf
  | ofRange self l v hv =>
    rw [ofRange_eq] at hv
    obtain ⟨w, hw, hwf⟩ := pushAll_wellFormed l ImmutableVector.new WellFormed_new
    rw [hw] at hv
    cases hv
    exact hwf
  | ofInitializerList self l v hv =>
    rw [ofInitializerList_eq] at hv
    obtain ⟨w, hw, hwf⟩ := pushAll_wellFormed l ImmutableVector.new WellFormed_new
    rw [hw] at hv
    cases hv
    exact hwf
  | set v index value w _ hi hset ih =>
    obtain ⟨w', hw', _, hwf⟩ := Set_ok ih hi value
    rw [hw'] at hset
    cases hset
    exact hwf
  | pushBack v value w _ hpush ih =>
    obtain ⟨w', hw', _, hwf⟩ := PushBack_ok ih value
    rw [hw'] at hpush
    cases hpush
    exact hwf
  | popBack v w _ hpop ih =>
    obtain ⟨hne, _, _⟩ := PopBack_eq_ok ih hpop
    obtain ⟨w', hw', _, hwf⟩ := PopBack_ok ih hne
    rw [hw'] at hpop
    cases hpop
    exact hwf

/-- A lookup in a well-formed tree along digits in range finds a value or reports that there
is none; it never runs into undefined behaviour. -/
theorem walk_defined :
    ∀ (q : List Nat) (v : Option (Node T)), LinkWF v → (∀ d ∈ q, d < 32) →
      (∃ y, walk v q = .ok y) ∨ walk v q = .error .runtime_error := by
  intro q
  induction q with
  | nil =>
    intro v _ _
    cases v with
    | none => exact Or.inr rfl
    | some n =>
      cases hval : n.value with
      | none => right; simp only [walk, hval]
      | some y => left; exact ⟨y, by simp only [walk, hval]⟩
  | cons d ds ih =>
    intro v hv hq
    cases v with
    | none => exact Or.inr rfl
    | some n =>
      obtain ⟨child, hc, hcwf⟩ := WF_get (hv n rfl) (hq d (List.mem_cons_self _ _))
      have := ih child hcwf (fun e he => hq e (List.mem_cons_of_mem _ he))
      simpa only [walk, hc] using this

theorem Get_defined {v : ImmutableVector T} (hv : WellFormed v) {j : Nat} (hj : j < 2 ^ 64) :
    (∃ y, v.Get j = .ok y) ∨ v.Get j = .error .runtime_error := by
  rw [Get_eq_walk v hj]
  exact walk_defined (path j) v.root_ hv.linkWF (path_lt j)

end ImmutableVector

namespace ImmutableVector

variable {T : Type}

theorem Get_PopBack_lt {v w : ImmutableVector T} (hv : WellFormed v) {j : Nat}
    (hj : j < v.size_) (h : v.PopBack = .ok w) : w.Get j = v.Get j := by
  obtain ⟨_, hr, _⟩ := PopBack_eq_ok hv h
  have hj64 : j < 2 ^ 64 := lt_trans hj hv.2
  rw [Get_eq_walk w hj64, Get_eq_walk v hj64]
  exact walk_rebuild_frame (path v.size_) (path j) v.root_ w.root_ hr
    (fun hpre => absurd (path_prefix_le hpre) (by omega)) (path_lt j)

/-- One in-range call keeps the handle well formed and in agreement with the list model. -/
theorem applyOp_agree {v : ImmutableVector T} {l : List T} (hv : WellFormed v)
    (ha : Agree v l) (op : Op T) (hr : InRange l [op]) :
    ∃ w, applyOp v op = .ok w ∧ WellFormed w ∧ Agree w (modelOp l op) := by
  obtain ⟨hsz, hget⟩ := ha
  have hsz' : v.size_ = l.length := hsz
  cases op with
  | pushBack x =>
    have hlen : l.length + 1 < 2 ^ 64 := hr.1
    obtain ⟨w, hw, hs, hwf⟩ := PushBack_ok hv x
    have hs' : w.size_ = l.length + 1 := by
      rw [hs, hsz']; exact Nat.mod_eq_of_lt hlen
    refine ⟨w, hw, hwf, ?_, ?_⟩
    · show w.size_ = (l ++ [x]).length
      rw [hs', List.length_append, List.length_singleton]
    · intro i hi
      have hi' : i < l.length + 1 := by simpa [modelOp] using hi
      by_cases hlt : i < l.length
      · rw [Get_PushBack_lt hv (by omega) hw, hget i hlt]
        simp only [modelOp, List.getElem_append_left hlt]
      · have hieq : i = v.size_ := by omega
        subst hieq
        rw [Get_PushBack_self hv hw]
        simp [modelOp, hsz']
  | set i x =>
    have hi : i < l.length := hr.1
    have hi64 : i < 2 ^ 64 := by have := hv.2; omega
    obtain ⟨w, hw, hs, hwf⟩ := Set_ok hv hi64 x
    refine ⟨w, hw, hwf, ?_, ?_⟩
    · show w.size_ = (l.set i x).length
      rw [hs, hsz', List.length_set]
    · intro j hj
      have hj' : j < l.length := by simpa [modelOp] using hj
      have hj64 : j < 2 ^ 64 := by have := hv.2; omega
      by_cases hji : j = i
      · subst hji
        rw [Get_Set_self hi64 hw]
        simp [modelOp]
      · rw [Get_Set_other hv hi64 hj64 hji hw, hget j hj']
        simp only [modelOp]
        rw [List.getElem_set_ne (fun hcon => hji hcon.symm)]
  | popBack =>
    have hpos : 0 < l.length := hr.1
    obtain ⟨w, hw, hs, hwf⟩ := PopBack_ok hv (by omega)
    refine ⟨w, hw, hwf, ?_, ?_⟩
    · show w.size_ = l.dropLast.length
      rw [hs, hsz', List.length_dropLast]
    · intro j hj
      have hj' : j < l.length - 1 := by simpa [modelOp] using hj
      rw [Get_PopBack_lt hv (by omega) hw, hget j (by omega)]
      simp [modelOp]

theorem InRange_cons {l : List T} {op : Op T} {ops : List (Op T)} (h : InRange l (op :: ops)) :
    InRange l [op] ∧ InRange (modelOp l op) ops := by
  cases op with
  | pushBack x => exact ⟨⟨h.1, trivial⟩, h.2⟩
  | set i x => exact ⟨⟨h.1, trivial⟩, h.2⟩
  | popBack => exact ⟨⟨h.1, trivial⟩, h.2⟩

/-- Every in-range sequence of calls returns, and the handle it returns agrees with the
list model. -/
theorem runOps_agree :
    ∀ (ops : List (Op T)) (v : ImmutableVector T) (l : List T), WellFormed v → Agree v l →
      InRange l ops →
      ∃ w, runOps v ops = .ok w ∧ WellFormed w ∧ Agree w (modelOps l ops) := by
  intro ops
  induction ops with
  | nil => intro v l hv ha _; exact ⟨v, rfl, hv, ha⟩
  | cons op ops ih =>
    intro v l hv ha hr
    obtain ⟨h1, h2⟩ := InRange_cons hr
    obtain ⟨w1, hw1, hwf1, ha1⟩ := applyOp_agree hv ha op h1
    obtain ⟨w, hw, hwf, haw⟩ := ih w1 (modelOp l op) hwf1 ha1 h2
    exact ⟨w, by rw [runOps_cons, hw1]; exact hw, hwf, haw⟩

theorem InRange_take :
    ∀ (ops : List (Op T)) (l : List T) (k : Nat), InRange l ops → InRange l (ops.take k) := by
  intro ops
  induction ops with
  | nil => intro l k h; simpa using h
  | cons op ops ih =>
    intro l k h
    cases k with
    | zero => trivial
    | succ k =>
      obtain ⟨h1, h2⟩ := InRange_cons h
      have := ih (modelOp l op) k h2
      cases op with
      | pushBack x => exact ⟨h.1, this⟩
      | set i x => exact ⟨h.1, this⟩
      | popBack => exact ⟨h.1, this⟩

/-- Appending a list of values to the empty vector. -/
theorem pushAll_new_spec {T : Type} (xs : List T) (hN : xs.length < 2 ^ 64) :
    ∃ v, pushAll new xs = .ok v ∧ v.Size = xs.length ∧
      ∀ i (hi : i < xs.length), v.Get i = .ok xs[i] := by
  obtain ⟨w, hw, _, hsz, _, hnew⟩ :=
    pushAll_spec xs new WellFormed_new (by simpa [new] using hN)
  refine ⟨w, hw, by simpa [Size, new] using hsz, ?_⟩
  intro i hi
  have := hnew i hi
  simpa [new] using this

theorem Agree_new : Agree (new : ImmutableVector T) [] :=
  ⟨rfl, fun i hi => absurd hi (Nat.not_lt_zero i)⟩

end ImmutableVector

/-! ## Evaluating the addressing scheme on concrete indices -/

namespace ImmutableVector

variable {T : Type}

theorem GetMaxBatchId_of_lt {n : Nat} (h : n < 32) : GetMaxBatchId n = 1 := by
  rw [GetMaxBatchId_eq]
  by_cases h0 : n = 0
  · simp [h0]
  · rw [Nat.digits_def' (by norm_num) (Nat.pos_of_ne_zero h0), Nat.div_eq_of_lt h]
    simp

theorem path_of_lt {n : Nat} (h : n < 32) : path n = [n] := by
  simp [path, GetMaxBatchId_of_lt h, digitsFrom, Nat.mod_eq_of_lt h]

theorem sampleVector_eq : (new : ImmutableVector Nat).PushBack 7 = .ok sampleVector := by
  have h0 : (new : ImmutableVector Nat).size_ = 0 := rfl
  simp only [PushBack, h0, Insert_eq_path _ (by norm_num : 0 < 2 ^ 64),
    path_of_lt (by norm_num : 0 < 32)]
  rfl

theorem sampleVector_reachable : Reachable sampleVector :=
  Reachable.pushBack new 7 sampleVector Reachable.new sampleVector_eq

theorem sampleVector_get : sampleVector.Get 0 = .ok 7 := by
  rw [Get_eq_walk _ (by norm_num), path_of_lt (by norm_num)]
  rfl

end ImmutableVector

/-! ## The store layer: unfolding the recursive walks -/

namespace Handle

variable {T : Type}

open ImmutableVector (GetBitBatch_eq digitsFrom GetMaxBatchId GetMaxBatchId_le path)

theorem store_GetValue_terminal (s : Store T) (v : Option Nat) (index m : Nat) :
    GetValue s v index m m = walk s v [] := by
  rw [GetValue.eq_def, if_pos rfl]; rfl

theorem store_GetValue_step (s : Store T) (v : Option Nat) {index b m : Nat} (hne : b ≠ m)
    (hb : b < 13) :
    GetValue s v index b m =
      match v with
      | none => .error .runtime_error
      | some a =>
        match s[a]? with
        | none => .error .undefined
        | some c =>
          match c.children[index / 32 ^ b % 32]? with
          | none => .error .undefined
          | some child => GetValue s child index (b + 1) m := by
  rw [GetValue.eq_def, if_neg hne]
  split
  · rename_i e h
    rw [GetBitBatch_eq hb] at h
    cases h
  · rename_i bits h
    rw [GetBitBatch_eq hb] at h
    cases h
    rfl

theorem store_Insert_terminal (s : Store T) (v : Option Nat) (index m : Nat) (value : T) :
    Insert s v index m m value = insertLeaf value s v := by
  rw [Insert.eq_def, if_pos rfl]; rfl

theorem store_Insert_step (s : Store T) (v : Option Nat) {index b m : Nat} (value : T)
    (hne : b ≠ m) (hb : b < 13) :
    Insert s v index b m value =
      match v with
      | none => .error .undefined
      | some a =>
        match s[a]? with
        | none => .error .undefined
        | some c =>
          match c.children[index / 32 ^ b % 32]? with
          | none => .error .undefined
          | some child =>
            match Insert (tmpNode s child).2 (tmpNode s child).1 index (b + 1) m value with
            | .error e => .error e
            | .ok r => mkCopy r.2 a (c.children.set (index / 32 ^ b % 32) r.1) := by
  rw [Insert.eq_def, if_neg hne]
  split
  · rename_i e h
    rw [GetBitBatch_eq hb] at h
    cases h
  · rename_i bits h
    rw [GetBitBatch_eq hb] at h
    cases h
    rfl

theorem store_SetValue_terminal (s : Store T) (v : Option Nat) (index m : Nat) (value : T) :
    SetValue s v index m m value = setLeaf value s v := by
  rw [SetValue.eq_def, if_pos rfl]; rfl

theorem store_SetValue_step (s : Store T) (v : Option Nat) {index b m : Nat} (value : T)
    (hne : b ≠ m) (hb : b < 13) :
    SetValue s v index b m value =
      match v with
      | none => .error .undefined
      | some a =>
        match s[a]? with
        | none => .error .undefined
        | some c =>
          match c.children[index / 32 ^ b % 32]? with
          | none => .error .undefined
          | some child =>
            match SetValue (tmpNode s child).2 (tmpNode s child).1 index (b + 1) m value with
            | .error e => .error e
            | .ok r => mkCopy r.2 a (c.children.set (index / 32 ^ b % 32) r.1) := by
  rw [SetValue.eq_def, if_neg hne]
  split
  · rename_i e h
    rw [GetBitBatch_eq hb] at h
    cases h
  · rename_i bits h
    rw [GetBitBatch_eq hb] at h
    cases h
    rfl

theorem store_Erase_terminal (s : Store T) (v : Option Nat) (index m : Nat) :
    Erase s v index m m = eraseLeaf s v := by
  rw [Erase.eq_def, if_pos rfl]; rfl

theorem store_Erase_step (s : Store T) (v : Option Nat) {index b m : Nat} (hne : b ≠ m)
    (hb : b < 13) :
    Erase s v index b m =
      match v with
      | none => .error .undefined
      | some a =>
        match s[a]? with
        | none => .error .undefined
        | some c =>
          match c.children[index / 32 ^ b % 32]? with
          | none => .error .undefined
          | some child =>
            match Erase (tmpNode s child).2 (tmpNode s child).1 index (b + 1) m with
            | .error e => .error e
            | .ok r => mkCopy r.2 a (c.children.set (index / 32 ^ b % 32) r.1) := by
  rw [Erase.eq_def, if_neg hne]
  split
  · rename_i e h
    rw [GetBitBatch_eq hb] at h
    cases h
  · rename_i bits h
    rw [GetBitBatch_eq hb] at h
    cases h
    rfl

theorem store_GetValue_eq_walk (index : Nat) :
    ∀ (k b : Nat) (s : Store T) (v : Option Nat), b + k ≤ 13 →
      GetValue s v index b (b + k) = walk s v (digitsFrom index b k) := by
  intro k
  induction k with
  | zero =>
    intro b s v _
    rw [Nat.add_zero, store_GetValue_terminal]; rfl
  | succ k ih =>
    intro b s v hb
    rw [store_GetValue_step s v (by omega) (by omega)]
    have key : ∀ child, GetValue s child index (b + 1) (b + (k + 1)) =
        walk s child (digitsFrom index (b + 1) k) := by
      intro child
      have := ih (b + 1) s child (by omega)
      rwa [show b + 1 + k = b + (k + 1) by omega] at this
    simp only [digitsFrom, walk, key]

theorem store_Insert_eq_rebuild (index : Nat) (value : T) :
    ∀ (k b : Nat) (s : Store T) (v : Option Nat), b + k ≤ 13 →
      Insert s v index b (b + k) value =
        rebuild (insertLeaf value) s v (digitsFrom index b k) := by
  intro k
  induction k with
  | zero =>
    intro b s v _
    rw [Nat.add_zero, store_Insert_terminal]; rfl
  | succ k ih =>
    intro b s v hb
    rw [store_Insert_step s v value (by omega) (by omega)]
    have key : ∀ (s' : Store T) (v' : Option Nat),
        Insert s' v' index (b + 1) (b + (k + 1)) value =
          rebuild (insertLeaf value) s' v' (digitsFrom index (b + 1) k) := by
      intro s' v'
      have := ih (b + 1) s' v' (by omega)
      rwa [show b + 1 + k = b + (k + 1) by omega] at this
    simp only [digitsFrom, rebuild, key]

theorem store_SetValue_eq_rebuild (index : Nat) (value : T) :
    ∀ (k b : Nat) (s : Store T) (v : Option Nat), b + k ≤ 13 →
      SetValue s v index b (b + k) value =
        rebuild (setLeaf value) s v (digitsFrom index b k) := by
  intro k
  induction k with
  | zero =>
    intro b s v _
    rw [Nat.add_zero, store_SetValue_terminal]; rfl
  | succ k ih =>
    intro b s v hb
    rw [store_SetValue_step s v value (by omega) (by omega)]
    have key : ∀ (s' : Store T) (v' : Option Nat),
        SetValue s' v' index (b + 1) (b + (k + 1)) value =
          rebuild (setLeaf value) s' v' (digitsFrom index (b + 1) k) := by
      intro s' v'
      have := ih (b + 1) s' v' (by omega)
      rwa [show b + 1 + k = b + (k + 1) by omega] at this
    simp only [digitsFrom, rebuild, key]

theorem store_Erase_eq_rebuild (index : Nat) :
    ∀ (k b : Nat) (s : Store T) (v : Option Nat), b + k ≤ 13 →
      Erase s v index b (b + k) = rebuild eraseLeaf s v (digitsFrom index b k) := by
  intro k
  induction k with
  | zero =>
    intro b s v _
    rw [Nat.add_zero, store_Erase_terminal]; rfl
  | succ k ih =>
    intro b s v hb
    rw [store_Erase_step s v (by omega) (by omega)]
    have key : ∀ (s' : Store T) (v' : Option Nat),
        Erase s' v' index (b + 1) (b + (k + 1)) =
          rebuild eraseLeaf s' v' (digitsFrom index (b + 1) k) := by
      intro s' v'
      have := ih (b + 1) s' v' (by omega)
      rwa [show b + 1 + k = b + (k + 1) by omega] at this
    simp only [digitsFrom, rebuild, key]

theorem store_Get_eq_walk (s : Store T) (h : Handle) {i : Nat} (hi : i < 2 ^ 64) :
    Get s h i = walk s h.root_ (path i) := by
  have := store_GetValue_eq_walk i (GetMaxBatchId i) 0 s h.root_
    (by have := GetMaxBatchId_le hi; omega)
  rw [Nat.zero_add] at this
  exact this

theorem store_SetValue_eq_path (s : Store T) (v : Option Nat) {i : Nat} (hi : i < 2 ^ 64) (x : T) :
    SetValue s v i 0 (GetMaxBatchId i) x = rebuild (setLeaf x) s v (path i) := by
  have := store_SetValue_eq_rebuild i x (GetMaxBatchId i) 0 s v
    (by have := GetMaxBatchId_le hi; omega)
  rw [Nat.zero_add] at this
  exact this

theorem store_Insert_eq_path (s : Store T) (v : Option Nat) {i : Nat} (hi : i < 2 ^ 64) (x : T) :
    Insert s v i 0 (GetMaxBatchId i) x = rebuild (insertLeaf x) s v (path i) := by
  have := store_Insert_eq_rebuild i x (GetMaxBatchId i) 0 s v
    (by have := GetMaxBatchId_le hi; omega)
  rw [Nat.zero_add] at this
  exact this

theorem store_Erase_eq_path (s : Store T) (v : Option Nat) {i : Nat} (hi : i < 2 ^ 64) :
    Erase s v i 0 (GetMaxBatchId i) = rebuild eraseLeaf s v (path i) := by
  have := store_Erase_eq_rebuild i (GetMaxBatchId i) 0 s v
    (by have := GetMaxBatchId_le hi; omega)
  rw [Nat.zero_add] at this
  exact this

end Handle

/-! ## The store layer simulates the tree layer -/

theorem Store.getElem?_of_prefix {T : Type} {s s' : Store T} (hpre : s <+: s') {a : Nat}
    {c : Cell T} (h : s[a]? = some c) : s'[a]? = some c := by
  obtain ⟨r, rfl⟩ := hpre
  have hlt : a < s.length := (List.getElem?_eq_some.1 h).1
  rw [List.getElem?_append_left hlt]
  exact h

theorem Store.prefix_alloc {T : Type} (s : Store T) (c : Cell T) : s <+: (s.alloc c).2 :=
  List.prefix_append s [c]

theorem Store.getElem?_alloc {T : Type} (s : Store T) (c : Cell T) :
    (s.alloc c).2[(s.alloc c).1]? = some c := by
  simp [Store.alloc]

namespace StandsFor

variable {T : Type}

theorem mono {s s' : Store T} (hpre : s <+: s') {p : Option Nat} {t : Option (Node T)}
    (h : StandsFor s p t) : StandsFor s' p t := by
  induction h with
  | null => exact StandsFor.null
  | node a c cs hsa hlen _ ih =>
    exact StandsFor.node a c cs (Store.getElem?_of_prefix hpre hsa) hlen ih

theorem of_none {s : Store T} {t : Option (Node T)} (h : StandsFor s none t) : t = none := by
  cases h
  rfl

theorem of_some {s : Store T} {a : Nat} {t : Option (Node T)} (h : StandsFor s (some a) t) :
    ∃ c cs, s[a]? = some c ∧ t = some (Node.mk cs c.value) ∧
      c.children.length = cs.length ∧
      ∀ (k : Nat) (p : Option Nat) (t' : Option (Node T)),
        c.children[k]? = some p → cs[k]? = some t' → StandsFor s p t' := by
  cases h with
  | node a c cs hsa hlen hch => exact ⟨c, cs, hsa, rfl, hlen, hch⟩

/-- A freshly allocated node stands for the tree built from the trees its links stand for. -/
theorem alloc {s : Store T} (children : List (Option Nat)) (value : Option T)
    (cs : List (Option (Node T))) (hlen : children.length = cs.length)
    (hch : ∀ (k : Nat) (p : Option Nat) (t : Option (Node T)),
      children[k]? = some p → cs[k]? = some t → StandsFor s p t) :
    StandsFor (s.alloc ⟨children, value⟩).2 (some (s.alloc ⟨children, value⟩).1)
      (some (Node.mk cs value)) := by
  have h := StandsFor.node (s := (s.alloc ⟨children, value⟩).2)
    (s.alloc ⟨children, value⟩).1
    ⟨children, value⟩ cs (Store.getElem?_alloc s _) hlen
    (fun k p t h1 h2 => (hch k p t h1 h2).mono (Store.prefix_alloc s _))
  exact h

theorem empty (s : Store T) :
    StandsFor (s.alloc (Cell.empty : Cell T)).2 (some (s.alloc (Cell.empty : Cell T)).1)
      (some (Node.empty : Node T)) := by
  refine alloc (List.replicate (1 <<< kBitsInBatch) none) none
    (List.replicate (1 <<< kBitsInBatch) none) (by simp) ?_
  intro k p t h1 h2
  have hk : k < 1 <<< kBitsInBatch := by
    by_contra hk
    rw [List.getElem?_replicate, if_neg hk] at h1
    cases h1
  rw [List.getElem?_replicate_of_lt hk] at h1 h2
  cases h1
  cases h2
  exact StandsFor.null

theorem ofValue (s : Store T) (x : T) :
    StandsFor (s.alloc (Cell.ofValue x)).2 (some (s.alloc (Cell.ofValue x)).1)
      (some (Node.ofValue x)) := by
  refine alloc (List.replicate (1 <<< kBitsInBatch) none) (some x)
    (List.replicate (1 <<< kBitsInBatch) none) (by simp) ?_
  intro k p t h1 h2
  have hk : k < 1 <<< kBitsInBatch := by
    by_contra hk
    rw [List.getElem?_replicate, if_neg hk] at h1
    cases h1
  rw [List.getElem?_replicate_of_lt hk] at h1 h2
  cases h1
  cases h2
  exact StandsFor.null

end StandsFor

namespace Handle

variable {T : Type}

/-- A lookup in the store finds what the lookup in the tree finds. -/
theorem walk_eq :
    ∀ (q : List Nat) (s : Store T) (p : Option Nat) (t : Option (Node T)), StandsFor s p t →
      walk s p q = ImmutableVector.walk t q := by
  intro q
  induction q with
  | nil =>
    intro s p t h
    cases h with
    | null => rfl
    | node a c cs hsa hlen hch =>
      simp only [walk, ImmutableVector.walk, hsa, ImmutableVector.value_mk]
  | cons d ds ih =>
    intro s p t h
    cases h with
    | null => rfl
    | node a c cs hsa hlen hch =>
      simp only [walk, ImmutableVector.walk, hsa, ImmutableVector.children_mk]
      cases hcd : c.children[d]? with
      | none =>
        have : cs[d]? = none := by
          rw [List.getElem?_eq_none_iff] at hcd ⊢
          omega
        simp only [this]
      | some p' =>
        have hd : d < cs.length := by
          have := (List.getElem?_eq_some.1 hcd).1
          omega
        have hcs : cs[d]? = some cs[d] := List.getElem?_eq_getElem hd
        simp only [hcs]
        exact ih s p' cs[d] (hch d p' cs[d] hcd hcs)

theorem tmpNode_sim {s : Store T} {child : Option Nat} {tchild : Option (Node T)}
    (h : StandsFor s child tchild) :
    s <+: (tmpNode s child).2 ∧
      StandsFor (tmpNode s child).2 (tmpNode s child).1 (ImmutableVector.tmpNode tchild) := by
  cases h with
  | null => exact ⟨Store.prefix_alloc s _, StandsFor.empty s⟩
  | node a c cs hsa hlen hch =>
    exact ⟨List.prefix_refl s, StandsFor.node a c cs hsa hlen hch⟩

theorem insertLeaf_sim (x : T) (s : Store T) (p : Option Nat) (t : Option (Node T)) :
    SimResult s (insertLeaf x s p) (ImmutableVector.insertLeaf x t) :=
  ⟨_, _, rfl, Store.prefix_alloc s _, StandsFor.ofValue s x⟩

theorem eraseLeaf_sim (s : Store T) (p : Option Nat) (t : Option (Node T)) :
    SimResult s (eraseLeaf s p) (ImmutableVector.eraseLeaf t) :=
  ⟨_, _, rfl, List.prefix_refl s, StandsFor.null⟩

theorem setLeaf_sim (x : T) (s : Store T) (p : Option Nat) (t : Option (Node T))
    (h : StandsFor s p t) : SimResult s (setLeaf x s p) (ImmutableVector.setLeaf x t) := by
  cases h with
  | null => exact rfl
  | node a c cs hsa hlen hch =>
    have hset : ((s.alloc ⟨c.children, c.value⟩).2.assignValue
        (s.alloc ⟨c.children, c.value⟩).1 x) = .ok (s.alloc ⟨c.children, some x⟩).2 := by
      simp [Store.assignValue, Store.alloc]
    refine ⟨some (s.alloc ⟨c.children, some x⟩).1, (s.alloc ⟨c.children, some x⟩).2, ?_,
      Store.prefix_alloc s _, StandsFor.alloc c.children (some x) cs hlen hch⟩
    simp only [setLeaf, hsa, hset]
    rfl

/-- Path copying in the store matches path copying in the tree: same failure, or a link in
an extended store that stands for the rebuilt tree. -/
theorem rebuild_sim {leafS : Store T → Option Nat → Except Error (Option Nat × Store T)}
    {leaf : Option (Node T) → Except Error (Option (Node T))}
    (hleaf : ∀ s p t, StandsFor s p t → SimResult s (leafS s p) (leaf t)) :
    ∀ (q : List Nat) (s : Store T) (p : Option Nat) (t : Option (Node T)), StandsFor s p t →
      SimResult s (rebuild leafS s p q) (ImmutableVector.rebuild leaf t q) := by
  intro q
  induction q with
  | nil => intro s p t h; exact hleaf s p t h
  | cons d ds ih =>
    intro s p t h
    cases h with
    | null => exact rfl
    | node a c cs hsa hlen hch =>
      cases hcd : c.children[d]? with
      | none =>
        have hcs : cs[d]? = none := by
          rw [List.getElem?_eq_none_iff] at hcd ⊢
          omega
        simp only [rebuild, ImmutableVector.rebuild, hsa, hcd, hcs,
          ImmutableVector.children_mk]
        exact rfl
      | some child =>
        have hd : d < cs.length := by
          have := (List.getElem?_eq_some.1 hcd).1
          omega
        have hcs : cs[d]? = some cs[d] := List.getElem?_eq_getElem hd
        obtain ⟨hpre1, hst1⟩ := tmpNode_sim (hch d child cs[d] hcd hcs)
        have hrec := ih (tmpNode s child).2 (tmpNode s child).1
          (ImmutableVector.tmpNode cs[d]) hst1
        simp only [rebuild, ImmutableVector.rebuild, hsa, hcd, hcs,
          ImmutableVector.children_mk, ImmutableVector.value_mk]
        cases hr : ImmutableVector.rebuild leaf (ImmutableVector.tmpNode cs[d]) ds with
        | error e =>
          rw [hr] at hrec
          have hrec' : rebuild leafS (tmpNode s child).2 (tmpNode s child).1 ds = .error e :=
            hrec
          simp only [hrec']
          exact rfl
        | ok r' =>
          rw [hr] at hrec
          obtain ⟨p', s2, hrS, hpre2, hst2⟩ := hrec
          have hpre : s <+: s2 := hpre1.trans hpre2
          have hsa2 : s2[a]? = some c := Store.getElem?_of_prefix hpre hsa
          simp only [hrS, mkCopy, hsa2]
          refine ⟨_, _, rfl, hpre.trans (Store.prefix_alloc s2 _), ?_⟩
          refine StandsFor.alloc (c.children.set d p') c.value (cs.set d r')
            (by simp [hlen]) ?_
          intro k p1 t1 h1 h2
          by_cases hkd : d = k
          · subst hkd
            rw [List.getElem?_set_self (List.getElem?_eq_some.1 hcd).1] at h1
            rw [List.getElem?_set_self hd] at h2
            cases h1
            cases h2
            exact hst2
          · rw [List.getElem?_set_ne hkd] at h1 h2
            exact (hch k p1 t1 h1 h2).mono hpre

end Handle

/-! ## Public calls in the store layer -/

namespace Handle

variable {T : Type}

theorem Get_eq {s : Store T} {h : Handle} {v : ImmutableVector T} (hst : Stands s h v)
    {i : Nat} (hi : i < 2 ^ 64) : Get s h i = v.Get i := by
  rw [store_Get_eq_walk s h hi, ImmutableVector.Get_eq_walk v hi]
  exact walk_eq _ s h.root_ v.root_ hst.1

theorem Stands.weaken {s s' : Store T} (hpre : s <+: s') {h : Handle} {v : ImmutableVector T}
    (hst : Stands s h v) : Stands s' h v :=
  ⟨hst.1.mono hpre, hst.2⟩

/-- A store-layer call that returns corresponds to the tree-layer call on the vector the
handle stands for: that call returns too, the returned handle stands for its result, and
the store has only been extended. -/
theorem applyOp_sim {s : Store T} {h : Handle} {v : ImmutableVector T} (hst : Stands s h v)
    (hv : ImmutableVector.WellFormed v) (op : ImmutableVector.Op T) (hop : opTyped op)
    (h' : Handle) (s' : Store T) (hcall : applyOp s h op = .ok (h', s')) :
    ∃ w, ImmutableVector.applyOp v op = .ok w ∧ Stands s' h' w ∧ s <+: s' := by
  obtain ⟨hroot, hsize⟩ := hst
  have hs64 : h.size_ < 2 ^ 64 := by rw [hsize]; exact hv.2
  cases op with
  | pushBack x =>
    have hsim := rebuild_sim (fun s p t _ => insertLeaf_sim x s p t)
      (ImmutableVector.path h.size_) s h.root_ v.root_ hroot
    simp only [applyOp, PushBack, store_Insert_eq_path s _ hs64] at hcall
    simp only [ImmutableVector.applyOp, ImmutableVector.PushBack,
      ImmutableVector.Insert_eq_path _ hv.2]
    simp only [← hsize]
    cases hr : ImmutableVector.rebuild (ImmutableVector.insertLeaf x) v.root_
        (ImmutableVector.path h.size_) with
    | error e =>
      rw [hr] at hsim
      have hsim' : rebuild (insertLeaf x) s h.root_ (ImmutableVector.path h.size_) =
        .error e := hsim
      simp [hsim'] at hcall
    | ok r =>
      rw [hr] at hsim
      obtain ⟨p, s2, hrS, hpre, hst2⟩ := hsim
      simp only [hrS, Except.ok.injEq, Prod.mk.injEq] at hcall
      obtain ⟨rfl, rfl⟩ := hcall
      exact ⟨_, rfl, ⟨hst2, rfl⟩, hpre⟩
  | set i x =>
    have hi : i < 2 ^ 64 := hop
    have hsim := rebuild_sim (setLeaf_sim x) (ImmutableVector.path i) s h.root_
      v.root_ hroot
    simp only [applyOp, Set, store_SetValue_eq_path s _ hi] at hcall
    simp only [ImmutableVector.applyOp, ImmutableVector.Set,
      ImmutableVector.SetValue_eq_path _ hi]
    cases hr : ImmutableVector.rebuild (ImmutableVector.setLeaf x) v.root_
        (ImmutableVector.path i) with
    | error e =>
      rw [hr] at hsim
      have hsim' : rebuild (setLeaf x) s h.root_ (ImmutableVector.path i) = .error e := hsim
      simp [hsim'] at hcall
    | ok r =>
      rw [hr] at hsim
      obtain ⟨p, s2, hrS, hpre, hst2⟩ := hsim
      simp only [hrS, Except.ok.injEq, Prod.mk.injEq] at hcall
      obtain ⟨rfl, rfl⟩ := hcall
      exact ⟨_, rfl, ⟨hst2, hsize⟩, hpre⟩
  | popBack =>
    have hsim := rebuild_sim (fun s p t _ => eraseLeaf_sim s p t)
      (ImmutableVector.path h.size_) s h.root_ v.root_ hroot
    by_cases h0 : h.size_ = 0
    · simp [applyOp, PopBack, h0] at hcall
    · have h0' : ¬ v.size_ = 0 := by rw [← hsize]; exact h0
      simp only [applyOp, PopBack, if_neg h0, store_Erase_eq_path s _ hs64] at hcall
      simp only [ImmutableVector.applyOp, ImmutableVector.PopBack, if_neg h0',
        ImmutableVector.Erase_eq_path _ hv.2]
      simp only [← hsize]
      cases hr : ImmutableVector.rebuild ImmutableVector.eraseLeaf v.root_
          (ImmutableVector.path h.size_) with
      | error e =>
        rw [hr] at hsim
        have hsim' : rebuild eraseLeaf s h.root_ (ImmutableVector.path h.size_) =
          .error e := hsim
        simp [hsim'] at hcall
      | ok r =>
        rw [hr] at hsim
        obtain ⟨p, s2, hrS, hpre, hst2⟩ := hsim
        simp only [hrS, Except.ok.injEq, Prod.mk.injEq] at hcall
        obtain ⟨rfl, rfl⟩ := hcall
        exact ⟨_, rfl, ⟨hst2, rfl⟩, hpre⟩

/-- A tree-layer call that returns is matched by the store-layer call. -/
theorem applyOp_ok {s : Store T} {h : Handle} {v : ImmutableVector T} (hst : Stands s h v)
    (hv : ImmutableVector.WellFormed v) (op : ImmutableVector.Op T) (hop : opTyped op)
    {w : ImmutableVector T} (hcall : ImmutableVector.applyOp v op = .ok w) :
    ∃ h' s', applyOp s h op = .ok (h', s') ∧ Stands s' h' w ∧ s <+: s' := by
  obtain ⟨hroot, hsize⟩ := hst
  have hs64 : h.size_ < 2 ^ 64 := by rw [hsize]; exact hv.2
  cases op with
  | pushBack x =>
    have hsim := rebuild_sim (fun s p t _ => insertLeaf_sim x s p t)
      (ImmutableVector.path h.size_) s h.root_ v.root_ hroot
    obtain ⟨hr, hsz⟩ := ImmutableVector.PushBack_eq_ok hv hcall
    rw [← hsize] at hr hsz
    rw [hr] at hsim
    obtain ⟨p, s2, hrS, hpre, hst2⟩ := hsim
    refine ⟨⟨p, (h.size_ + 1) % 2 ^ kSizeBits⟩, s2, ?_, ⟨hst2, hsz.symm⟩, hpre⟩
    simp only [applyOp, PushBack, store_Insert_eq_path s _ hs64, hrS]
  | set i x =>
    have hi : i < 2 ^ 64 := hop
    have hsim := rebuild_sim (setLeaf_sim x) (ImmutableVector.path i) s h.root_
      v.root_ hroot
    obtain ⟨hr, hsz⟩ := ImmutableVector.Set_eq_ok hi hcall
    rw [hr] at hsim
    obtain ⟨p, s2, hrS, hpre, hst2⟩ := hsim
    refine ⟨⟨p, h.size_⟩, s2, ?_, ⟨hst2, by rw [hsz]; exact hsize⟩, hpre⟩
    simp only [applyOp, Set, store_SetValue_eq_path s _ hi, hrS]
  | popBack =>
    have hsim := rebuild_sim (fun s p t _ => eraseLeaf_sim s p t)
      (ImmutableVector.path h.size_) s h.root_ v.root_ hroot
    obtain ⟨h0, hr, hsz⟩ := ImmutableVector.PopBack_eq_ok hv hcall
    rw [← hsize] at hr hsz h0
    rw [hr] at hsim
    obtain ⟨p, s2, hrS, hpre, hst2⟩ := hsim
    refine ⟨⟨p, h.size_ - 1⟩, s2, ?_, ⟨hst2, hsz.symm⟩, hpre⟩
    simp only [applyOp, PopBack, if_neg h0, store_Erase_eq_path s _ hs64, hrS]

theorem store_pushAll_nil (s : Store T) (h : Handle) : pushAll s h ([] : List T) = .ok (h, s) := rfl

theorem store_pushAll_cons (s : Store T) (h : Handle) (x : T) (xs : List T) :
    pushAll s h (x :: xs) =
      match PushBack s h x with
      | .error e => .error e
      | .ok r => pushAll r.2 r.1 xs := by
  simp only [pushAll, List.foldlM_cons]
  cases PushBack s h x <;> rfl

/-- The appending loop in the store matches the appending loop on the tree. -/
theorem pushAll_sim :
    ∀ (l : List T) (s : Store T) (h : Handle) (v : ImmutableVector T), Stands s h v →
      ImmutableVector.WellFormed v → ∀ (h' : Handle) (s' : Store T),
      pushAll s h l = .ok (h', s') →
      ∃ w, ImmutableVector.pushAll v l = .ok w ∧ Stands s' h' w ∧ s <+: s' := by
  intro l
  induction l with
  | nil =>
    intro s h v hst _ h' s' hcall
    rw [store_pushAll_nil] at hcall
    simp only [Except.ok.injEq, Prod.mk.injEq] at hcall
    obtain ⟨rfl, rfl⟩ := hcall
    exact ⟨v, rfl, hst, List.prefix_refl s⟩
  | cons x xs ih =>
    intro s h v hst hv h' s' hcall
    rw [store_pushAll_cons] at hcall
    cases hp : PushBack s h x with
    | error e => simp [hp] at hcall
    | ok r =>
      simp only [hp] at hcall
      obtain ⟨u, hu, hstu, hpre⟩ :=
        applyOp_sim hst hv (.pushBack x) trivial r.1 r.2 hp
      have hu' : v.PushBack x = .ok u := hu
      obtain ⟨_, hu2, _, huwf⟩ := ImmutableVector.PushBack_ok hv x
      rw [hu'] at hu2
      cases hu2
      obtain ⟨w, hw, hstw, hpre2⟩ := ih r.2 r.1 u hstu huwf h' s' hcall
      exact ⟨w, by rw [ImmutableVector.pushAll_cons, hu']; exact hw, hstw, hpre.trans hpre2⟩

theorem store_ofCount_eq (s : Store T) (count : Nat) (value : T) :
    ofCount s count value =
      match pushAll (new (s.alloc (Cell.empty : Cell T)).2).2
          (new (s.alloc (Cell.empty : Cell T)).2).1 (List.replicate count value) with
      | .error e => .error e
      | .ok r => .ok (⟨r.1.root_, r.1.size_⟩, r.2) := by
  have hmap : (List.range count).map (fun _ => value) = List.replicate count value := by
    apply List.ext_getElem
    · simp
    · intro n h1 h2
      simp
  unfold ofCount
  rw [hmap]

theorem new_stands (s : Store T) :
    Stands (new s).2 (new s).1 (ImmutableVector.new : ImmutableVector T) :=
  ⟨StandsFor.empty s, rfl⟩

end Handle

/-! ## Program states -/

namespace World

variable {T : Type}

theorem good_init : Good (⟨[], []⟩ : World T) := by
  intro h hh
  cases hh

/-- One call keeps the state good, keeps every stored node as it was, and keeps the
handles returned so far. -/
theorem step_good {w w' : World T} (hstep : Step w w') (hg : Good w) :
    Good w' ∧ w.store <+: w'.store ∧ w.handles ⊆ w'.handles := by
  cases hstep with
  | create =>
    refine ⟨?_, Store.prefix_alloc _ _, List.subset_cons_self _ _⟩
    intro h hh
    rcases List.mem_cons.1 hh with rfl | hh
    · exact ⟨ImmutableVector.new, ImmutableVector.Reachable.new,
        ⟨StandsFor.empty w.store, rfl⟩⟩
    · obtain ⟨v, hv, hst⟩ := hg h hh
      exact ⟨v, hv, hst.weaken (Store.prefix_alloc _ _)⟩
  | ofCount count value h' s' hc hcall =>
    rw [Handle.store_ofCount_eq] at hcall
    cases hp : Handle.pushAll (Handle.new (w.store.alloc (Cell.empty : Cell T)).2).2
        (Handle.new (w.store.alloc (Cell.empty : Cell T)).2).1
        (List.replicate count value) with
    | error e => simp [hp] at hcall
    | ok r =>
      simp only [hp, Except.ok.injEq, Prod.mk.injEq] at hcall
      obtain ⟨rfl, rfl⟩ := hcall
      obtain ⟨u, hu, hstu, hpre⟩ := Handle.pushAll_sim _ _ _ _ (Handle.new_stands _)
        ImmutableVector.WellFormed_new r.1 r.2 hp
      have hpre' : w.store <+: r.2 :=
        (Store.prefix_alloc _ _).trans ((Store.prefix_alloc _ _).trans hpre)
      refine ⟨?_, hpre', List.subset_cons_self _ _⟩
      intro g hgm
      rcases List.mem_cons.1 hgm with rfl | hgm
      · refine ⟨u, ImmutableVector.Reachable.ofCount count value u hc ?_, hstu⟩
        rw [ImmutableVector.ofCount_eq]
        exact hu
      · obtain ⟨v1, hv1, hst1⟩ := hg g hgm
        exact ⟨v1, hv1, hst1.weaken hpre'⟩
  | ofRange l h' s' hcall =>
    simp only [Handle.ofRange] at hcall
    cases hp : Handle.pushAll (Handle.new w.store).2 (Handle.new w.store).1 l with
    | error e => simp [hp] at hcall
    | ok r =>
      simp only [hp, Except.ok.injEq, Prod.mk.injEq] at hcall
      obtain ⟨rfl, rfl⟩ := hcall
      obtain ⟨u, hu, hstu, hpre⟩ := Handle.pushAll_sim _ _ _ _ (Handle.new_stands _)
        ImmutableVector.WellFormed_new r.1 r.2 hp
      have hpre' : w.store <+: r.2 := (Store.prefix_alloc _ _).trans hpre
      refine ⟨?_, hpre', List.subset_cons_self _ _⟩
      intro g hgm
      rcases List.mem_cons.1 hgm with rfl | hgm
      · refine ⟨u, ImmutableVector.Reachable.ofRange ImmutableVector.new l u ?_, hstu⟩
        rw [ImmutableVector.ofRange_eq]
        exact hu
      · obtain ⟨v1, hv1, hst1⟩ := hg g hgm
        exact ⟨v1, hv1, hst1.weaken hpre'⟩
  | ofInitializerList l h' s' hcall =>
    simp only [Handle.ofInitializerList] at hcall
    cases hp : Handle.pushAll (Handle.new w.store).2 (Handle.new w.store).1 l with
    | error e => simp [hp] at hcall
    | ok r =>
      simp only [hp, Except.ok.injEq, Prod.mk.injEq] at hcall
      obtain ⟨rfl, rfl⟩ := hcall
      obtain ⟨u, hu, hstu, hpre⟩ := Handle.pushAll_sim _ _ _ _ (Handle.new_stands _)
        ImmutableVector.WellFormed_new r.1 r.2 hp
      have hpre' : w.store <+: r.2 := (Store.prefix_alloc _ _).trans hpre
      refine ⟨?_, hpre', List.subset_cons_self _ _⟩
      intro g hgm
      rcases List.mem_cons.1 hgm with rfl | hgm
      · refine ⟨u, ImmutableVector.Reachable.ofInitializerList ImmutableVector.new l u ?_,
          hstu⟩
        rw [ImmutableVector.ofInitializerList_eq]
        exact hu
      · obtain ⟨v1, hv1, hst1⟩ := hg g hgm
        exact ⟨v1, hv1, hst1.weaken hpre'⟩
  | call h op h' s' hh hop hcall =>
    obtain ⟨v, hv, hst⟩ := hg h hh
    obtain ⟨u, hu, hstu, hpre⟩ := Handle.applyOp_sim hst hv.wellFormed op hop h' s' hcall
    refine ⟨?_, hpre, List.subset_cons_self _ _⟩
    intro g hgm
    rcases List.mem_cons.1 hgm with rfl | hgm
    · refine ⟨u, ?_, hstu⟩
      cases op with
      | pushBack x => exact ImmutableVector.Reachable.pushBack v x u hv hu
      | set i x => exact ImmutableVector.Reachable.set v i x u hv hop hu
      | popBack => exact ImmutableVector.Reachable.popBack v u hv hu
    · obtain ⟨v1, hv1, hst1⟩ := hg g hgm
      exact ⟨v1, hv1, hst1.weaken hpre⟩

theorem steps_good {w w' : World T} (hsteps : Relation.ReflTransGen Step w w')
    (hg : Good w) : Good w' ∧ w.store <+: w'.store ∧ w.handles ⊆ w'.handles := by
  induction hsteps with
  | refl => exact ⟨hg, List.prefix_refl _, List.Subset.refl _⟩
  | tail _ hstep ih =>
    obtain ⟨hg1, hpre1, hsub1⟩ := ih
    obtain ⟨hg2, hpre2, hsub2⟩ := step_good hstep hg1
    exact ⟨hg2, hpre1.trans hpre2, hsub1.trans hsub2⟩

theorem obtainable_good {w : World T} (hw : Obtainable w) : Good w :=
  (steps_good hw good_init).1

end World

/-! ## Sample program states -/

theorem sampleWorld_obtainable : Obtainable sampleWorld :=
  Relation.ReflTransGen.single (Step.create ⟨[], []⟩)

theorem sampleWorld_step :
    Handle.applyOp sampleWorld.store ⟨some 0, 0⟩ (.pushBack 7) =
      .ok (⟨some 3, 1⟩, sampleWorldNext.store) := by
  simp only [Handle.applyOp, Handle.PushBack,
    Handle.store_Insert_eq_path _ _ (by norm_num : 0 < 2 ^ 64),
    ImmutableVector.path_of_lt (by norm_num : 0 < 32)]
  rfl

theorem sampleWorld_steps : Relation.ReflTransGen Step sampleWorld sampleWorldNext :=
  Relation.ReflTransGen.single
    (Step.call sampleWorld ⟨some 0, 0⟩ (.pushBack 7) ⟨some 3, 1⟩ sampleWorldNext.store
      (List.mem_cons_self _ _) trivial sampleWorld_step)

/-! ## The depth of an index -/

namespace ImmutableVector

/-- The depth of a positive index is its number of base-32 digits. -/
theorem GetMaxBatchId_bounds {n : Nat} (hn : 1 ≤ n) :
    1 ≤ GetMaxBatchId n ∧ 32 ^ (GetMaxBatchId n - 1) ≤ n ∧ n < 32 ^ GetMaxBatchId n := by
  refine ⟨GetMaxBatchId_pos n, ?_, lt_pow_GetMaxBatchId n⟩
  have hle := Nat.base_pow_length_digits_le 32 n (by norm_num) (by omega)
  have hpos : 1 ≤ (Nat.digits 32 n).length := by
    rw [Nat.digits_def' (by norm_num) (by omega)]
    simp
  rw [GetMaxBatchId_eq, max_eq_right hpos]
  have hsplit : 32 ^ (Nat.digits 32 n).length = 32 * 32 ^ ((Nat.digits 32 n).length - 1) := by
    rw [← pow_succ']
    congr 1
    omega
  rw [hsplit] at hle
  exact Nat.le_of_mul_le_mul_left hle (by norm_num)

/-- The depth is the only exponent that brackets the index between two powers of 32. -/
theorem GetMaxBatchId_unique {n d : Nat} (hd : 1 ≤ d) (hlo : 32 ^ (d - 1) ≤ n)
    (hhi : n < 32 ^ d) : GetMaxBatchId n = d := by
  have hn : 1 ≤ n := le_trans (Nat.one_le_pow _ _ (by norm_num)) hlo
  obtain ⟨hpos, hlo', hhi'⟩ := GetMaxBatchId_bounds hn
  rcases Nat.lt_trichotomy (GetMaxBatchId n) d with hlt | heq | hgt
  · have : 32 ^ GetMaxBatchId n ≤ 32 ^ (d - 1) :=
      Nat.pow_le_pow_right (by norm_num) (by omega)
    omega
  · exact heq
  · have : 32 ^ d ≤ 32 ^ (GetMaxBatchId n - 1) :=
      Nat.pow_le_pow_right (by norm_num) (by omega)
    omega

theorem digitsFrom_eq_map (n : Nat) :
    ∀ k b, digitsFrom n b k = (List.range k).map (fun l => n / 32 ^ (b + l) % 32) := by
  intro k
  induction k with
  | zero => intro b; rfl
  | succ k ih =>
    intro b
    rw [digitsFrom, ih, List.range_succ_eq_map, List.map_cons, List.map_map]
    congr 1
    apply List.map_congr_left
    intro l _
    simp only [Function.comp, Nat.succ_eq_add_one]
    rw [show b + 1 + l = b + (l + 1) by omega]

/-- For a `size_t` index the digits computed by `GetBitBatch` are those of `path`. -/
theorem addressPath_eq {i : Nat} (hi : i < 2 ^ 64) : addressPath i = (path i).map .ok := by
  have hd := GetMaxBatchId_le hi
  rw [addressPath, path, digitsFrom_eq_map, List.map_map]
  apply List.map_congr_left
  intro l hl
  have hl' : l < GetMaxBatchId i := List.mem_range.1 hl
  rw [GetBitBatch_eq (by omega)]
  simp

end ImmutableVector

/-! ## What `PushBack` and `PopBack` do at and below the addressed node -/

namespace ImmutableVector

variable {T : Type}

theorem walk_ofValue_cons (x : T) {e : Nat} {es : List Nat} (he : e < 32) :
    walk (some (Node.ofValue x)) (e :: es) = .error .runtime_error := by
  have : (Node.ofValue x).children[e]? = some none := by
    have h32 : 1 <<< kBitsInBatch = 32 := by decide
    simp only [Node.ofValue, Node.children, h32]
    exact List.getElem?_replicate_of_lt he
  simp only [walk, this, walk_none]

/-- After `PushBack`, an index addressed through the node of the old size finds nothing:
that node is fresh and has no children. -/
theorem Get_PushBack_below {v w : ImmutableVector T} (hv : WellFormed v) {j : Nat}
    (hj : j < 2 ^ 64) (hne : j ≠ v.size_) (hpre : path v.size_ <+: path j) {x : T}
    (h : v.PushBack x = .ok w) : w.Get j = .error .runtime_error := by
  obtain ⟨hr, _⟩ := PushBack_eq_ok hv h
  obtain ⟨t, ht, hwalk⟩ := walk_rebuild_at (path v.size_) v.root_ w.root_ hr
  obtain ⟨q, hq⟩ := hpre
  rw [Get_eq_walk w hj, ← hq, hwalk q]
  simp only [insertLeaf, Except.ok.injEq] at ht
  subst ht
  cases q with
  | nil =>
    rw [List.append_nil] at hq
    exact absurd (path_injective hq).symm hne
  | cons e es =>
    exact walk_ofValue_cons x
      (path_lt j e (by rw [← hq]; exact List.mem_append_right _ (List.mem_cons_self _ _)))

/-- After `PopBack`, the old size and every index addressed through its node find
nothing: the link to that node is empty. -/
theorem Get_PopBack_below {v w : ImmutableVector T} (hv : WellFormed v) {j : Nat}
    (hj : j < 2 ^ 64) (hpre : path v.size_ <+: path j) (h : v.PopBack = .ok w) :
    w.Get j = .error .runtime_error := by
  obtain ⟨_, hr, _⟩ := PopBack_eq_ok hv h
  obtain ⟨t, ht, hwalk⟩ := walk_rebuild_at (path v.size_) v.root_ w.root_ hr
  obtain ⟨q, hq⟩ := hpre
  rw [Get_eq_walk w hj, ← hq, hwalk q]
  simp only [eraseLeaf, Except.ok.injEq] at ht
  subst ht
  exact walk_none q

theorem Get_PopBack_other {v w : ImmutableVector T} (hv : WellFormed v) {j : Nat}
    (hj : j < 2 ^ 64) (hpre : ¬ path v.size_ <+: path j) (h : v.PopBack = .ok w) :
    w.Get j = v.Get j := by
  obtain ⟨_, hr, _⟩ := PopBack_eq_ok hv h
  rw [Get_eq_walk w hj, Get_eq_walk v hj]
  exact walk_rebuild_frame (path v.size_) (path j) v.root_ w.root_ hr hpre (path_lt j)

theorem addressPath_prefix_iff {i j : Nat} (hi : i < 2 ^ 64) (hj : j < 2 ^ 64) :
    addressPath i <+: addressPath j ↔ path i <+: path j := by
  rw [addressPath_eq hi, addressPath_eq hj]
  have hinj : Function.Injective (Except.ok : Nat → Except Error Nat) := by
    intro a b hab
    cases hab
    rfl
  constructor
  · intro h
    rw [List.prefix_iff_eq_take] at h ⊢
    rw [List.length_map, ← List.map_take] at h
    exact List.map_injective_iff.2 hinj h
  · intro h
    exact h.map _

theorem path_32 : path 32 = [0, 1] := by
  have h : GetMaxBatchId 32 = 2 := GetMaxBatchId_unique (by norm_num) (by norm_num) (by norm_num)
  simp [path, h, digitsFrom]

theorem sampleSparse_eq : (new : ImmutableVector Nat).Set 32 9 = .ok sampleSparse := by
  simp only [Set, SetValue_eq_path _ (by norm_num : 32 < 2 ^ 64), path_32]
  rfl

theorem sampleSparse_reachable : Reachable sampleSparse :=
  Reachable.set new 32 9 sampleSparse Reachable.new (by norm_num) sampleSparse_eq

theorem sampleSparse_pushBack : sampleSparse.PushBack 5 = .ok sampleSparsePushed := by
  have h0 : sampleSparse.size_ = 0 := rfl
  simp only [PushBack, h0, Insert_eq_path _ (by norm_num : 0 < 2 ^ 64),
    path_of_lt (by norm_num : 0 < 32)]
  rfl

theorem sampleSparse_get : sampleSparse.Get 32 = .ok 9 := by
  rw [Get_eq_walk _ (by norm_num), path_32]
  rfl

theorem sampleSparsePushed_get : sampleSparsePushed.Get 32 = .error .runtime_error := by
  rw [Get_eq_walk _ (by norm_num), path_32]
  rfl

end ImmutableVector

namespace ImmutableVector

variable {T : Type}

theorem GetBitBatch_lt {index level bits : Nat} (h : GetBitBatch index level = .ok bits) :
    bits < 32 := by
  by_cases hl : level < 13
  · rw [GetBitBatch_eq hl] at h
    cases h
    exact Nat.mod_lt _ (by norm_num)
  · rw [GetBitBatch_undefined (by omega)] at h
    cases h

theorem PopBack_defined {v : ImmutableVector T} (hv : WellFormed v) :
    v.PopBack ≠ .error .undefined := by
  by_cases h0 : v.size_ = 0
  · simp [PopBack, h0]
  · obtain ⟨w, hw, _⟩ := PopBack_ok hv h0
    rw [hw]
    intro hcon
    cases hcon

end ImmutableVector

/-! ## Nothing is populated beyond the size in in-range use -/

namespace ImmutableVector

variable {T : Type}

theorem Get_new (i : Nat) (hi : i < 2 ^ 64) :
    (new : ImmutableVector T).Get i = .error .runtime_error := by
  rw [Get_eq_walk _ hi]
  exact walk_empty (path_lt i)

/-- One in-range call keeps every index above the size unpopulated. -/
theorem applyOp_beyond {v w : ImmutableVector T} {l : List T} (hv : WellFormed v)
    (hsz : v.size_ = l.length) (op : Op T) (hr : InRange l [op]) (hw : applyOp v op = .ok w)
    (hinv : ∀ i, i < 2 ^ 64 → v.size_ < i → v.Get i = .error .runtime_error) :
    ∀ i, i < 2 ^ 64 → w.size_ < i → w.Get i = .error .runtime_error := by
  intro i hi hlt
  cases op with
  | pushBack x =>
    have hw' : v.PushBack x = .ok w := hw
    obtain ⟨_, hs⟩ := PushBack_eq_ok hv hw'
    have hlen : l.length + 1 < 2 ^ 64 := hr.1
    have hs' : w.size_ = v.size_ + 1 := by
      rw [hs, hsz]; exact Nat.mod_eq_of_lt hlen
    by_cases hpre : path v.size_ <+: path i
    · exact Get_PushBack_below hv hi (by omega) hpre hw'
    · rw [Get_PushBack_other hv hi hpre hw']
      exact hinv i hi (by omega)
  | set i0 x =>
    have hw' : v.Set i0 x = .ok w := hw
    have hi0 : i0 < l.length := hr.1
    have hi064 : i0 < 2 ^ 64 := by have := hv.2; omega
    obtain ⟨_, hs⟩ := Set_eq_ok hi064 hw'
    rw [Get_Set_other hv hi064 hi (by omega) hw']
    exact hinv i hi (by omega)
  | popBack =>
    have hw' : v.PopBack = .ok w := hw
    obtain ⟨h0, _, hs⟩ := PopBack_eq_ok hv hw'
    by_cases hpre : path v.size_ <+: path i
    · exact Get_PopBack_below hv hi hpre hw'
    · rw [Get_PopBack_other hv hi hpre hw']
      have hne : i ≠ v.size_ := by
        intro hcon
        rw [hcon] at hpre
        exact hpre (List.prefix_refl _)
      exact hinv i hi (by omega)

/-- One growing in-range call keeps every index from the size on unpopulated. -/
theorem applyOp_beyond_grow {v w : ImmutableVector T} {l : List T} (hv : WellFormed v)
    (hsz : v.size_ = l.length) (op : Op T) (hg : op.isGrow = true) (hr : InRange l [op])
    (hw : applyOp v op = .ok w)
    (hinv : ∀ i, i < 2 ^ 64 → v.size_ ≤ i → v.Get i = .error .runtime_error) :
    ∀ i, i < 2 ^ 64 → w.size_ ≤ i → w.Get i = .error .runtime_error := by
  intro i hi hle
  cases op with
  | pushBack x =>
    have hw' : v.PushBack x = .ok w := hw
    obtain ⟨_, hs⟩ := PushBack_eq_ok hv hw'
    have hlen : l.length + 1 < 2 ^ 64 := hr.1
    have hs' : w.size_ = v.size_ + 1 := by
      rw [hs, hsz]; exact Nat.mod_eq_of_lt hlen
    by_cases hpre : path v.size_ <+: path i
    · exact Get_PushBack_below hv hi (by omega) hpre hw'
    · rw [Get_PushBack_other hv hi hpre hw']
      exact hinv i hi (by omega)
  | set i0 x =>
    have hw' : v.Set i0 x = .ok w := hw
    have hi0 : i0 < l.length := hr.1
    have hi064 : i0 < 2 ^ 64 := by have := hv.2; omega
    obtain ⟨_, hs⟩ := Set_eq_ok hi064 hw'
    rw [Get_Set_other hv hi064 hi (by omega) hw']
    exact hinv i hi (by omega)
  | popBack => cases hg

/-- An in-range sequence of calls keeps every index above the size unpopulated, and every
index from the size on when it has no `PopBack`. -/
theorem runOps_beyond :
    ∀ (ops : List (Op T)) (v : ImmutableVector T) (l : List T), WellFormed v → Agree v l →
      InRange l ops →
      (∀ i, i < 2 ^ 64 → v.size_ < i → v.Get i = .error .runtime_error) →
      ∃ w, runOps v ops = .ok w ∧ Agree w (modelOps l ops) ∧
        (∀ i, i < 2 ^ 64 → w.size_ < i → w.Get i = .error .runtime_error) ∧
        ((∀ op ∈ ops, op.isGrow = true) →
          (∀ i, i < 2 ^ 64 → v.size_ ≤ i → v.Get i = .error .runtime_error) →
          ∀ i, i < 2 ^ 64 → w.size_ ≤ i → w.Get i = .error .runtime_error) := by
  intro ops
  induction ops with
  | nil =>
    intro v l _ ha _ hinv
    exact ⟨v, rfl, ha, hinv, fun _ h => h⟩
  | cons op ops ih =>
    intro v l hv ha hr hinv
    obtain ⟨h1, h2⟩ := InRange_cons hr
    obtain ⟨w1, hw1, hwf1, ha1⟩ := applyOp_agree hv ha op h1
    have hinv1 := applyOp_beyond hv ha.1 op h1 hw1 hinv
    obtain ⟨w, hw, haw, hinvw, hgrow⟩ := ih w1 (modelOp l op) hwf1 ha1 h2 hinv1
    refine ⟨w, by rw [runOps_cons, hw1]; exact hw, haw, hinvw, ?_⟩
    intro hall hinv0
    apply hgrow (fun o ho => hall o (List.mem_cons_of_mem _ ho))
    exact applyOp_beyond_grow hv ha.1 op (hall op (List.mem_cons_self _ _)) h1 hw1 hinv0

end ImmutableVector

/-! ## The counted walks -/

namespace ImmutableVector

variable {T : Type}

theorem GetValueCount_terminal (v : Option (Node T)) (index m : Nat) :
    GetValueCount v index m m = (GetValue v index m m, 0) := by
  rw [GetValueCount.eq_def, if_pos rfl, GetValue_terminal]
  cases v with
  | none => rfl
  | some n =>
    cases hval : n.value with
    | none => simp only [hval]
    | some x => simp only [hval]

theorem GetValueCount_step (v : Option (Node T)) {index b m : Nat} (hne : b ≠ m)
    (hb : b < 13) :
    GetValueCount v index b m =
      match v with
      | none => (.error .runtime_error, 0)
      | some n =>
        match n.children[index / 32 ^ b % 32]? with
        | none => (.error .undefined, 0)
        | some child =>
          ((GetValueCount child index (b + 1) m).1,
            (GetValueCount child index (b + 1) m).2 + 1) := by
  rw [GetValueCount.eq_def, if_neg hne]
  split
  · rename_i e h
    rw [GetBitBatch_eq hb] at h
    cases h
  · rename_i bits h
    rw [GetBitBatch_eq hb] at h
    cases h
    rfl

theorem InsertCount_terminal (v : Option (Node T)) (index m : Nat) (value : T) :
    InsertCount v index m m value = (Insert v index m m value, 0) := by
  rw [InsertCount.eq_def, if_pos rfl, Insert_terminal]
  rfl

theorem InsertCount_step (v : Option (Node T)) {index b m : Nat} (value : T) (hne : b ≠ m)
    (hb : b < 13) :
    InsertCount v index b m value =
      match v with
      | none => (.error .undefined, 0)
      | some n =>
        match n.children[index / 32 ^ b % 32]? with
        | none => (.error .undefined, 0)
        | some child =>
          match (InsertCount (tmpNode child) index (b + 1) m value).1 with
          | .error e => (.error e, (InsertCount (tmpNode child) index (b + 1) m value).2 + 1)
          | .ok t =>
            (.ok (some (Node.mk (n.children.set (index / 32 ^ b % 32) t) n.value)),
              (InsertCount (tmpNode child) index (b + 1) m value).2 + 1) := by
  rw [InsertCount.eq_def, if_neg hne]
  split
  · rename_i e h
    rw [GetBitBatch_eq hb] at h
    cases h
  · rename_i bits h
    rw [GetBitBatch_eq hb] at h
    cases h
    rfl

theorem SetValueCount_terminal (v : Option (Node T)) (index m : Nat) (value : T) :
    SetValueCount v index m m value = (SetValue v index m m value, 0) := by
  rw [SetValueCount.eq_def, if_pos rfl, SetValue_terminal]
  cases v <;> rfl

theorem SetValueCount_step (v : Option (Node T)) {index b m : Nat} (value : T) (hne : b ≠ m)
    (hb : b < 13) :
    SetValueCount v index b m value =
      match v with
      | none => (.error .undefined, 0)
      | some n =>
        match n.children[index / 32 ^ b % 32]? with
        | none => (.error .undefined, 0)
        | some child =>
          match (SetValueCount (tmpNode child) index (b + 1) m value).1 with
          | .error e => (.error e, (SetValueCount (tmpNode child) index (b + 1) m value).2 + 1)
          | .ok t =>
            (.ok (some (Node.mk (n.children.set (index / 32 ^ b % 32) t) n.value)),
              (SetValueCount (tmpNode child) index (b + 1) m value).2 + 1) := by
  rw [SetValueCount.eq_def, if_neg hne]
  split
  · rename_i e h
    rw [GetBitBatch_eq hb] at h
    cases h
  · rename_i bits h
    rw [GetBitBatch_eq hb] at h
    cases h
    rfl

theorem EraseCount_terminal (v : Option (Node T)) (index m : Nat) :
    EraseCount v index m m = (Erase v index m m, 0) := by
  rw [EraseCount.eq_def, if_pos rfl, Erase_terminal]
  rfl

theorem EraseCount_step (v : Option (Node T)) {index b m : Nat} (hne : b ≠ m)
    (hb : b < 13) :
    EraseCount v index b m =
      match v with
      | none => (.error .undefined, 0)
      | some n =>
        match n.children[index / 32 ^ b % 32]? with
        | none => (.error .undefined, 0)
        | some child =>
          match (EraseCount (tmpNode child) index (b + 1) m).1 with
          | .error e => (.error e, (EraseCount (tmpNode child) index (b + 1) m).2 + 1)
          | .ok t =>
            (.ok (some (Node.mk (n.children.set (index / 32 ^ b % 32) t) n.value)),
              (EraseCount (tmpNode child) index (b + 1) m).2 + 1) := by
  rw [EraseCount.eq_def, if_neg hne]
  split
  · rename_i e h
    rw [GetBitBatch_eq hb] at h
    cases h
  · rename_i bits h
    rw [GetBitBatch_eq hb] at h
    cases h
    rfl

end ImmutableVector

namespace ImmutableVector

variable {T : Type}

/-- The counted `GetValue` returns what `GetValue` returns. -/
theorem GetValueCount_fst (index : Nat) :
    ∀ (k b : Nat) (v : Option (Node T)), b + k ≤ 13 →
      (GetValueCount v index b (b + k)).1 = GetValue v index b (b + k) := by
  intro k
  induction k with
  | zero =>
    intro b v _
    rw [Nat.add_zero, GetValueCount_terminal]
  | succ k ih =>
    intro b v hb
    have key : ∀ child : Option (Node T),
        (GetValueCount child index (b + 1) (b + (k + 1))).1 =
          GetValue child index (b + 1) (b + (k + 1)) := by
      intro child
      have := ih (b + 1) child (by omega)
      rwa [show b + 1 + k = b + (k + 1) by omega] at this
    rw [GetValueCount_step v (by omega) (by omega), GetValue_step v (by omega) (by omega)]
    cases v with
    | none => rfl
    | some n =>
      cases hc : n.children[index / 32 ^ b % 32]? with
      | none => simp only [hc]
      | some child => simp only [hc, key]

/-- The counted `GetValue` makes at most as many descents as there are levels, and exactly
that many when it returns a value. -/
theorem GetValueCount_snd (index : Nat) :
    ∀ (k b : Nat) (v : Option (Node T)), b + k ≤ 13 →
      (GetValueCount v index b (b + k)).2 ≤ k ∧
        ((∃ y, (GetValueCount v index b (b + k)).1 = .ok y) →
          (GetValueCount v index b (b + k)).2 = k) := by
  intro k
  induction k with
  | zero =>
    intro b v _
    rw [Nat.add_zero, GetValueCount_terminal]
    exact ⟨le_refl _, fun _ => rfl⟩
  | succ k ih =>
    intro b v hb
    have key : ∀ child : Option (Node T),
        (GetValueCount child index (b + 1) (b + (k + 1))).2 ≤ k ∧
          ((∃ y, (GetValueCount child index (b + 1) (b + (k + 1))).1 = .ok y) →
            (GetValueCount child index (b + 1) (b + (k + 1))).2 = k) := by
      intro child
      have := ih (b + 1) child (by omega)
      rwa [show b + 1 + k = b + (k + 1) by omega] at this
    rw [GetValueCount_step v (by omega) (by omega)]
    cases v with
    | none =>
      refine ⟨Nat.zero_le _, ?_⟩
      rintro ⟨y, hy⟩
      cases hy
    | some n =>
      cases hc : n.children[index / 32 ^ b % 32]? with
      | none =>
        simp only [hc]
        refine ⟨Nat.zero_le _, ?_⟩
        rintro ⟨y, hy⟩
        cases hy
      | some child =>
        simp only [hc]
        obtain ⟨hle, heq⟩ := key child
        exact ⟨by omega, fun hy => by rw [heq hy]⟩

/-- The counted `Insert` returns what `Insert` returns. -/
theorem InsertCount_fst (index : Nat) (value : T) :
    ∀ (k b : Nat) (v : Option (Node T)), b + k ≤ 13 →
      (InsertCount v index b (b + k) value).1 = Insert v index b (b + k) value := by
  intro k
  induction k with
  | zero =>
    intro b v _
    rw [Nat.add_zero, InsertCount_terminal]
  | succ k ih =>
    intro b v hb
    have key : ∀ child : Option (Node T),
        (InsertCount child index (b + 1) (b + (k + 1)) value).1 =
          Insert child index (b + 1) (b + (k + 1)) value := by
      intro child
      have := ih (b + 1) child (by omega)
      rwa [show b + 1 + k = b + (k + 1) by omega] at this
    rw [InsertCount_step v value (by omega) (by omega), Insert_step v value (by omega) (by omega)]
    cases v with
    | none => rfl
    | some n =>
      cases hc : n.children[index / 32 ^ b % 32]? with
      | none => simp only [hc]
      | some child =>
        simp only [hc, key]
        cases Insert (tmpNode child) index (b + 1) (b + (k + 1)) value <;> rfl

/-- On a well-formed tree the counted `Insert` makes one descent per level. -/
theorem InsertCount_snd (index : Nat) (value : T) :
    ∀ (k b : Nat) (n : Node T), n.WF → b + k ≤ 13 →
      (InsertCount (some n) index b (b + k) value).2 = k := by
  intro k
  induction k with
  | zero =>
    intro b n _ _
    rw [Nat.add_zero, InsertCount_terminal]
  | succ k ih =>
    intro b n hn hb
    obtain ⟨child, hc, hcwf⟩ := WF_get hn (Nat.mod_lt (index / 32 ^ b) (by norm_num : 0 < 32))
    obtain ⟨m, hm⟩ := tmpNode_eq_some child
    have hrec := ih (b + 1) m (LinkWF_tmpNode hcwf m hm) (by omega)
    rw [show b + 1 + k = b + (k + 1) by omega] at hrec
    rw [InsertCount_step (some n) value (by omega) (by omega)]
    simp only [hc, hm]
    cases (InsertCount (some m) index (b + 1) (b + (k + 1)) value).1 <;> simp only [hrec]

/-- The counted `SetValue` returns what `SetValue` returns. -/
theorem SetValueCount_fst (index : Nat) (value : T) :
    ∀ (k b : Nat) (v : Option (Node T)), b + k ≤ 13 →
      (SetValueCount v index b (b + k) value).1 = SetValue v index b (b + k) value := by
  intro k
  induction k with
  | zero =>
    intro b v _
    rw [Nat.add_zero, SetValueCount_terminal]
  | succ k ih =>
    intro b v hb
    have key : ∀ child : Option (Node T),
        (SetValueCount child index (b + 1) (b + (k + 1)) value).1 =
          SetValue child index (b + 1) (b + (k + 1)) value := by
      intro child
      have := ih (b + 1) child (by omega)
      rwa [show b + 1 + k = b + (k + 1) by omega] at this
    rw [SetValueCount_step v value (by omega) (by omega),
      SetValue_step v value (by omega) (by omega)]
    cases v with
    | none => rfl
    | some n =>
      cases hc : n.children[index / 32 ^ b % 32]? with
      | none => simp only [hc]
      | some child =>
        simp only [hc, key]
        cases SetValue (tmpNode child) index (b + 1) (b + (k + 1)) value <;> rfl

/-- On a well-formed tree the counted `SetValue` makes one descent per level. -/
theorem SetValueCount_snd (index : Nat) (value : T) :
    ∀ (k b : Nat) (n : Node T), n.WF → b + k ≤ 13 →
      (SetValueCount (some n) index b (b + k) value).2 = k := by
  intro k
  induction k with
  | zero =>
    intro b n _ _
    rw [Nat.add_zero, SetValueCount_terminal]
  | succ k ih =>
    intro b n hn hb
    obtain ⟨child, hc, hcwf⟩ := WF_get hn (Nat.mod_lt (index / 32 ^ b) (by norm_num : 0 < 32))
    obtain ⟨m, hm⟩ := tmpNode_eq_some child
    have hrec := ih (b + 1) m (LinkWF_tmpNode hcwf m hm) (by omega)
    rw [show b + 1 + k = b + (k + 1) by omega] at hrec
    rw [SetValueCount_step (some n) value (by omega) (by omega)]
    simp only [hc, hm]
    cases (SetValueCount (some m) index (b + 1) (b + (k + 1)) value).1 <;> simp only [hrec]

/-- The counted `Erase` returns what `Erase` returns. -/
theorem EraseCount_fst (index : Nat) :
    ∀ (k b : Nat) (v : Option (Node T)), b + k ≤ 13 →
      (EraseCount v index b (b + k)).1 = Erase v index b (b + k) := by
  intro k
  induction k with
  | zero =>
    intro b v _
    rw [Nat.add_zero, EraseCount_terminal]
  | succ k ih =>
    intro b v hb
    have key : ∀ child : Option (Node T),
        (EraseCount child index (b + 1) (b + (k + 1))).1 =
          Erase child index (b + 1) (b + (k + 1)) := by
      intro child
      have := ih (b + 1) child (by omega)
      rwa [show b + 1 + k = b + (k + 1) by omega] at this
    rw [EraseCount_step v (by omega) (by omega), Erase_step v (by omega) (by omega)]
    cases v with
    | none => rfl
    | some n =>
      cases hc : n.children[index / 32 ^ b % 32]? with
      | none => simp only [hc]
      | some child =>
        simp only [hc, key]
        cases Erase (tmpNode child) index (b + 1) (b + (k + 1)) <;> rfl

/-- On a well-formed tree the counted `Erase` makes one descent per level. -/
theorem EraseCount_snd (index : Nat) :
    ∀ (k b : Nat) (n : Node T), n.WF → b + k ≤ 13 →
      (EraseCount (some n) index b (b + k)).2 = k := by
  intro k
  induction k with
  | zero =>
    intro b n _ _
    rw [Nat.add_zero, EraseCount_terminal]
  | succ k ih =>
    intro b n hn hb
    obtain ⟨child, hc, hcwf⟩ := WF_get hn (Nat.mod_lt (index / 32 ^ b) (by norm_num : 0 < 32))
    obtain ⟨m, hm⟩ := tmpNode_eq_some child
    have hrec := ih (b + 1) m (LinkWF_tmpNode hcwf m hm) (by omega)
    rw [show b + 1 + k = b + (k + 1) by omega] at hrec
    rw [EraseCount_step (some n) (by omega) (by omega)]
    simp only [hc, hm]
    cases (EraseCount (some m) index (b + 1) (b + (k + 1))).1 <;> simp only [hrec]

theorem GetMaxBatchId_32 : GetMaxBatchId 32 = 2 :=
  GetMaxBatchId_unique (by norm_num) (by norm_num) (by norm_num)

/-- On the empty vector the lookup of index 32 stops after one descent, at the empty link
in slot 0 of the root. -/
theorem GetValueCount_new_32 :
    (GetValueCount (new : ImmutableVector Nat).root_ 32 0 (GetMaxBatchId 32)).2 = 1 := by
  have h32 : 1 <<< kBitsInBatch = 32 := by decide
  have hc : (Node.empty : Node Nat).children[32 / 32 ^ 0 % 32]? = some none := by
    simp only [Node.empty, Node.children, h32]
    exact List.getElem?_replicate_of_lt (by norm_num)
  rw [GetMaxBatchId_32]
  simp only [new]
  rw [GetValueCount_step _ (by norm_num) (by norm_num)]
  simp only [hc]
  rw [GetValueCount_step _ (by norm_num) (by norm_num)]

end ImmutableVector

/-! ## The claims -/

namespace ImmutableVector

variable {T : Type}

/-- C1: for every sequence of `N` values (`N` a `size_t` count), appending them in order to
the empty vector returns a vector whose `Size()` is `N` and whose `Get(i)` returns the
`i`-th value for every `i < N`. -/
theorem pushBack_sequence_size_get (xs : List T) (hN : xs.length < 2 ^ 64) :
    ∃ v, pushAll new xs = .ok v ∧ v.Size = xs.length ∧
      ∀ i (hi : i < xs.length), v.Get i = .ok xs[i] :=
  pushAll_new_spec xs hN

theorem pushBack_sequence_size_get_witness :
    ∃ v, pushAll new [10, 20, 30] = .ok v ∧ v.Size = [10, 20, 30].length ∧
      ∀ i (hi : i < [10, 20, 30].length), v.Get i = .ok [10, 20, 30][i] :=
  pushBack_sequence_size_get [10, 20, 30] (by norm_num)

end ImmutableVector

/-- C2: in every obtainable program state, for every handle `v` returned so far, every
`size_t` index `i` (populated or not, below `v.Size()` or not) and every value `x`, the call
`v.Set(i, x)` returns a handle whose `Get(i)` returns `x`, and `v.Get(i)` on the original
handle, evaluated after the call, gives what it gave before the call. -/
theorem set_then_get_and_original_unchanged {T : Type} (w : World T) (hw : Obtainable w)
    (v : Handle) (hv : v ∈ w.handles) (i : Nat) (hi : i < 2 ^ 64) (x : T) :
    ∃ v2 s2, Handle.Set w.store v i x = .ok (v2, s2) ∧ Handle.Get s2 v2 i = .ok x ∧
      Handle.Get s2 v i = Handle.Get w.store v i := by
  obtain ⟨u, hu, hst⟩ := World.obtainable_good hw v hv
  obtain ⟨u2, hu2, _, _⟩ := ImmutableVector.Set_ok hu.wellFormed hi x
  obtain ⟨v2, s2, hcall, hst2, hpre⟩ :=
    Handle.applyOp_ok hst hu.wellFormed (.set i x) hi hu2
  refine ⟨v2, s2, hcall, ?_, ?_⟩
  · rw [Handle.Get_eq hst2 hi]
    exact ImmutableVector.Get_Set_self hi hu2
  · rw [Handle.Get_eq (hst.weaken hpre) hi, Handle.Get_eq hst hi]

theorem set_then_get_and_original_unchanged_witness :
    ∃ v2 s2, Handle.Set sampleWorld.store ⟨some 0, 0⟩ 40 9 = .ok (v2, s2) ∧
      Handle.Get s2 v2 40 = .ok 9 ∧
      Handle.Get s2 ⟨some 0, 0⟩ 40 = Handle.Get sampleWorld.store ⟨some 0, 0⟩ 40 :=
  set_then_get_and_original_unchanged sampleWorld sampleWorld_obtainable ⟨some 0, 0⟩
    (List.mem_cons_self _ _) 40 (by norm_num) 9

namespace ImmutableVector

variable {T : Type}

/-- C3: `Set` changes only the addressed slot.  For an obtainable vector `v`, `size_t`
indices `i` and `j` with `j ≠ i` and a value `x`, `v.Set(i, x)` returns a vector `w` with
`w.Get(j)` the same outcome as `v.Get(j)` (a value, or the lookup failure, in both) and
`w.Size() == v.Size()`, whether or not `i < v.Size()`. -/
theorem set_changes_only_addressed_slot (v : ImmutableVector T) (hv : Reachable v)
    (i j : Nat) (x : T) (hi : i < 2 ^ 64) (hj : j < 2 ^ 64) (hne : j ≠ i) :
    ∃ w, v.Set i x = .ok w ∧ w.Get j = v.Get j ∧
      ((∃ y, v.Get j = .ok y) ∨ v.Get j = .error .runtime_error) ∧ w.Size = v.Size := by
  obtain ⟨w, hw, hs, _⟩ := Set_ok hv.wellFormed hi x
  exact ⟨w, hw, Get_Set_other hv.wellFormed hi hj hne hw, Get_defined hv.wellFormed hj, hs⟩

theorem set_changes_only_addressed_slot_witness :
    ∃ w, sampleVector.Set 40 9 = .ok w ∧ w.Get 0 = sampleVector.Get 0 ∧
      ((∃ y, sampleVector.Get 0 = .ok y) ∨ sampleVector.Get 0 = .error .runtime_error) ∧
      w.Size = sampleVector.Size :=
  set_changes_only_addressed_slot sampleVector sampleVector_reachable 40 0 9
    (by norm_num) (by norm_num) (by norm_num)

end ImmutableVector

namespace ImmutableVector

variable {T : Type}

/-- C4: the vector refines a list model under `PushBack` and in-range `Set`.  For every
sequence of such calls made from the empty vector, with a reference list updated in
parallel, after every call (that is, after each prefix of the sequence) the calls have
returned a vector whose `Size()` is the length of the list and whose `Get(i)` returns the
`i`-th element of the list for every `i < Size()`. -/
theorem list_refinement_pushBack_set (ops : List (Op T))
    (hgrow : ∀ op ∈ ops, op.isGrow = true) (hr : InRange [] ops) (k : Nat) :
    ∃ v, runOps new (ops.take k) = .ok v ∧ v.Size = (modelOps [] (ops.take k)).length ∧
      ∀ i (hi : i < (modelOps [] (ops.take k)).length),
        v.Get i = .ok (modelOps [] (ops.take k))[i] := by
  obtain ⟨w, hw, _, hsz, hget⟩ :=
    runOps_agree (ops.take k) new [] WellFormed_new Agree_new (InRange_take ops [] k hr)
  exact ⟨w, hw, hsz, hget⟩

theorem list_refinement_pushBack_set_witness :
    ∃ v, runOps new (sampleOps.take 3) = .ok v ∧
      v.Size = (modelOps [] (sampleOps.take 3)).length ∧
      ∀ i (hi : i < (modelOps [] (sampleOps.take 3)).length),
        v.Get i = .ok (modelOps [] (sampleOps.take 3))[i] :=
  list_refinement_pushBack_set sampleOps (by decide)
    ⟨by norm_num, by norm_num, by norm_num, by norm_num, trivial⟩ 3

end ImmutableVector

namespace ImmutableVector

variable {T : Type}

/-- C5: on an obtainable vector, `PopBack` fails with the empty-vector error exactly when
`Size() == 0`; when `Size() > 0` it returns a vector whose `Size()` is one less. -/
theorem popBack_fails_iff_empty (v : ImmutableVector T) (hv : Reachable v) :
    (v.PopBack = .error .out_of_range ↔ v.Size = 0) ∧
      (0 < v.Size → ∃ w, v.PopBack = .ok w ∧ w.Size = v.Size - 1) := by
  have hpos : 0 < v.Size → ∃ w, v.PopBack = .ok w ∧ w.Size = v.Size - 1 := by
    intro h
    obtain ⟨w, hw, hs, _⟩ := PopBack_ok hv.wellFormed (Nat.pos_iff_ne_zero.1 h)
    exact ⟨w, hw, hs⟩
  refine ⟨⟨?_, ?_⟩, hpos⟩
  · intro h
    by_contra hne
    obtain ⟨w, hw, _⟩ := hpos (Nat.pos_of_ne_zero hne)
    rw [hw] at h
    cases h
  · intro h
    have h0 : v.size_ = 0 := h
    simp [PopBack, h0]

theorem popBack_fails_iff_empty_witness :
    (sampleVector.PopBack = .error .out_of_range ↔ sampleVector.Size = 0) ∧
      (0 < sampleVector.Size → ∃ w, sampleVector.PopBack = .ok w ∧
        w.Size = sampleVector.Size - 1) :=
  popBack_fails_iff_empty sampleVector sampleVector_reachable

end ImmutableVector

namespace ImmutableVector

variable {T : Type}

/-- C6: for an obtainable vector `v` and an index `i` at which `v.Get(i)` returns `y`, the
vector `w = v.Set(i, y)` has `w.Size() == v.Size()` and `w.Get(j)` gives the same outcome
as `v.Get(j)` for every `size_t` index `j`. -/
theorem set_of_get_same_contents (v : ImmutableVector T) (hv : Reachable v) (i : Nat)
    (hi : i < 2 ^ 64) (y : T) (hget : v.Get i = .ok y) :
    ∃ w, v.Set i y = .ok w ∧ w.Size = v.Size ∧ ∀ j, j < 2 ^ 64 → w.Get j = v.Get j := by
  obtain ⟨w, hw, hs, _⟩ := Set_ok hv.wellFormed hi y
  refine ⟨w, hw, hs, ?_⟩
  intro j hj
  by_cases hji : j = i
  · subst hji
    rw [Get_Set_self hi hw, hget]
  · exact Get_Set_other hv.wellFormed hi hj hji hw

theorem set_of_get_same_contents_witness :
    ∃ w, sampleVector.Set 0 7 = .ok w ∧ w.Size = sampleVector.Size ∧
      ∀ j, j < 2 ^ 64 → w.Get j = sampleVector.Get j :=
  set_of_get_same_contents sampleVector sampleVector_reachable 0 (by norm_num) 7
    sampleVector_get

end ImmutableVector

namespace ImmutableVector

variable {T : Type}

/-- C7: for a `size_t` count and a fill value, the (count, fill value) constructor returns
the vector that `count` successive `PushBack(fill)` calls build from the empty vector; its
`Size()` is `count` and `Get(i)` returns the fill value for every `i < count`. -/
theorem ofCount_eq_pushes (count : Nat) (fill : T) (hc : count < 2 ^ 64) :
    ∃ v, ofCount count fill = .ok v ∧ pushAll new (List.replicate count fill) = .ok v ∧
      v.Size = count ∧ ∀ i, i < count → v.Get i = .ok fill := by
  obtain ⟨v, hv, hsz, hget⟩ :=
    pushAll_new_spec (List.replicate count fill) (by simpa using hc)
  refine ⟨v, by rw [ofCount_eq]; exact hv, hv, by simpa using hsz, ?_⟩
  intro i hi
  have := hget i (by simpa using hi)
  simpa using this

theorem ofCount_eq_pushes_witness :
    ∃ v, ofCount 3 7 = .ok v ∧ pushAll new (List.replicate 3 7) = .ok v ∧
      v.Size = 3 ∧ ∀ i, i < 3 → v.Get i = .ok 7 :=
  ofCount_eq_pushes 3 7 (by norm_num)

end ImmutableVector

namespace ImmutableVector

variable {T : Type}

/-- C8: for a list `l` of elements (its length a `size_t` count), the iterator-range
constructor and the initializer-list constructor both return the vector obtained by
appending the elements of `l` in order to the empty vector; its `Size()` is the length of
`l` and `Get(i)` returns the `i`-th element for every `i` below the length. -/
theorem ofRange_eq_pushes (self : ImmutableVector T) (l : List T) (hl : l.length < 2 ^ 64) :
    ∃ v, ofRange self l = .ok v ∧ ofInitializerList self l = .ok v ∧
      pushAll new l = .ok v ∧ v.Size = l.length ∧
      ∀ i (hi : i < l.length), v.Get i = .ok l[i] := by
  obtain ⟨v, hv, hsz, hget⟩ := pushAll_new_spec l hl
  exact ⟨v, by rw [ofRange_eq]; exact hv, by rw [ofInitializerList_eq]; exact hv, hv, hsz, hget⟩

theorem ofRange_eq_pushes_witness :
    ∃ v, ofRange new [1, 2, 3] = .ok v ∧ ofInitializerList new [1, 2, 3] = .ok v ∧
      pushAll new [1, 2, 3] = .ok v ∧ v.Size = [1, 2, 3].length ∧
      ∀ i (hi : i < [1, 2, 3].length), v.Get i = .ok [1, 2, 3][i] :=
  ofRange_eq_pushes new [1, 2, 3] (by norm_num)

end ImmutableVector

/-- C9: no call writes to a node that was already allocated.  From an obtainable program
state `w`, after any number of later calls (the default constructor, and `Set`, `PushBack`
and `PopBack` on any handle returned so far), the store of `w` is an initial segment of the
later store, so every node of `w` is as it was and every write went to a node allocated
later; and a handle retained from `w` gives for every `size_t` index the outcome of `Get`
it gave in `w`.  (`Get` has no store to return, and `Size()` reads a field of the handle
itself.) -/
theorem retained_handle_unchanged {T : Type} (w w' : World T) (hw : Obtainable w)
    (hsteps : Relation.ReflTransGen Step w w') (v : Handle) (hv : v ∈ w.handles) :
    w.store <+: w'.store ∧ v ∈ w'.handles ∧
      ∀ i, i < 2 ^ 64 → Handle.Get w'.store v i = Handle.Get w.store v i := by
  obtain ⟨_, hpre, hsub⟩ := World.steps_good hsteps (World.obtainable_good hw)
  obtain ⟨u, _, hst⟩ := World.obtainable_good hw v hv
  refine ⟨hpre, hsub hv, ?_⟩
  intro i hi
  rw [Handle.Get_eq (hst.weaken hpre) hi, Handle.Get_eq hst hi]

theorem retained_handle_unchanged_witness :
    sampleWorld.store <+: sampleWorldNext.store ∧
      (⟨some 0, 0⟩ : Handle) ∈ sampleWorldNext.handles ∧
      ∀ i, i < 2 ^ 64 →
        Handle.Get sampleWorldNext.store ⟨some 0, 0⟩ i =
          Handle.Get sampleWorld.store ⟨some 0, 0⟩ i :=
  retained_handle_unchanged sampleWorld sampleWorldNext sampleWorld_obtainable
    sampleWorld_steps ⟨some 0, 0⟩ (List.mem_cons_self _ _)

namespace ImmutableVector

variable {T : Type}

/-- C10: for every index and every level with `level * 5` below the width of `size_t`,
`GetBitBatch(index, level)` returns `(index >> (level * 5)) & 31`, which is
`floor(index / 32 ^ level) mod 32`; the mask built by the loop is 31 and the result is
below 32. -/
theorem getBitBatch_digit (index level : Nat) (hl : level * 5 < 64) :
    GetBitBatch index level = .ok ((index >>> (level * 5)) &&& 31) ∧
      (index >>> (level * 5)) &&& 31 = index / 32 ^ level % 32 ∧
      bitMask = 31 ∧ (index >>> (level * 5)) &&& 31 < 32 := by
  have hmask : bitMask = 31 := by decide
  have hdig : (index >>> (level * 5)) &&& 31 = index / 32 ^ level % 32 := by
    have h31 : (31 : Nat) = 2 ^ 5 - 1 := by norm_num
    rw [h31, Nat.and_pow_two_sub_one_eq_mod, Nat.shiftRight_eq_div_pow, Nat.mul_comm,
      Nat.pow_mul]
  refine ⟨?_, hdig, hmask, ?_⟩
  · have hlt : level * kBitsInBatch < kSizeBits := hl
    simp only [GetBitBatch, if_pos hlt, hmask]
    rfl
  · rw [hdig]
    exact Nat.mod_lt _ (by norm_num)

theorem getBitBatch_digit_witness :
    GetBitBatch 1057 1 = .ok ((1057 >>> (1 * 5)) &&& 31) ∧
      (1057 >>> (1 * 5)) &&& 31 = 1057 / 32 ^ 1 % 32 ∧
      bitMask = 31 ∧ (1057 >>> (1 * 5)) &&& 31 < 32 :=
  getBitBatch_digit 1057 1 (by norm_num)

end ImmutableVector

namespace ImmutableVector

/-- C11: `GetMaxBatchId(n)` is the number of base-32 digits of `n`, at least 1:
`GetMaxBatchId(0) == 1`, and for `n >= 1` it is at least 1, satisfies
`32 ^ (d - 1) <= n < 32 ^ d` for `d = GetMaxBatchId(n)`, and is the only `d >= 1` that
does. -/
theorem getMaxBatchId_digit_count (n d : Nat) :
    GetMaxBatchId 0 = 1 ∧
      (1 ≤ n →
        1 ≤ GetMaxBatchId n ∧ 32 ^ (GetMaxBatchId n - 1) ≤ n ∧ n < 32 ^ GetMaxBatchId n ∧
          (1 ≤ d → 32 ^ (d - 1) ≤ n → n < 32 ^ d → d = GetMaxBatchId n)) := by
  refine ⟨GetMaxBatchId_of_lt (by norm_num), ?_⟩
  intro hn
  obtain ⟨h1, h2, h3⟩ := GetMaxBatchId_bounds hn
  exact ⟨h1, h2, h3, fun hd hlo hhi => (GetMaxBatchId_unique hd hlo hhi).symm⟩

theorem getMaxBatchId_digit_count_witness :
    GetMaxBatchId 0 = 1 ∧ 1 ≤ GetMaxBatchId 1057 ∧ 32 ^ (GetMaxBatchId 1057 - 1) ≤ 1057 ∧
      1057 < 32 ^ GetMaxBatchId 1057 ∧ 3 = GetMaxBatchId 1057 :=
  ⟨(getMaxBatchId_digit_count 1057 3).1,
    ((getMaxBatchId_digit_count 1057 3).2 (by norm_num)).1,
    ((getMaxBatchId_digit_count 1057 3).2 (by norm_num)).2.1,
    ((getMaxBatchId_digit_count 1057 3).2 (by norm_num)).2.2.1,
    ((getMaxBatchId_digit_count 1057 3).2 (by norm_num)).2.2.2
      (by norm_num) (by norm_num) (by norm_num)⟩

/-- C12: the addressing scheme is injective on `size_t` indices.  With `addressPath i` the
digit sequence `GetBitBatch(i, 0), ..., GetBitBatch(i, GetMaxBatchId(i) - 1)` walked for
`i`, distinct indices have distinct sequences, so they are never stored in the same
node. -/
theorem addressPath_injective (i j : Nat) (hi : i < 2 ^ 64) (hj : j < 2 ^ 64) (hne : i ≠ j) :
    addressPath i ≠ addressPath j := by
  intro h
  rw [addressPath_eq hi, addressPath_eq hj] at h
  have hinj : Function.Injective (Except.ok : Nat → Except Error Nat) := by
    intro a b hab
    cases hab
    rfl
  exact hne (path_injective (List.map_injective_iff.2 hinj h))

theorem addressPath_injective_witness : addressPath 1 ≠ addressPath 33 :=
  addressPath_injective 1 33 (by norm_num) (by norm_num) (by norm_num)

end ImmutableVector

namespace ImmutableVector

variable {T : Type}

/-- C13, as the code has it: `PushBack` changes the slot at index `Size()` and empties the
slots addressed through that slot's node.  For an obtainable vector `v`, a value `x` and a
`size_t` index `j`, `v.PushBack(x)` returns a vector `w` with `w.Get(v.Size()) == x`; when
the digit sequence of `j` does not start with the digit sequence of `v.Size()`, in
particular when `j < v.Size()`, `w.Get(j)` gives the same outcome as `v.Get(j)`; and when
`j != v.Size()` and the digit sequence of `j` does start with that of `v.Size()`,
`w.Get(j)` fails with the lookup failure, because `Insert` puts a fresh node without
children at the end of the path. -/
theorem pushBack_changes_slot_and_below (v : ImmutableVector T) (hv : Reachable v) (x : T)
    (j : Nat) (hj : j < 2 ^ 64) :
    ∃ w, v.PushBack x = .ok w ∧ w.Get v.Size = .ok x ∧
      (¬ addressPath v.Size <+: addressPath j → w.Get j = v.Get j) ∧
      (j < v.Size → w.Get j = v.Get j) ∧
      (j ≠ v.Size → addressPath v.Size <+: addressPath j →
        w.Get j = .error .runtime_error) := by
  have hwf := hv.wellFormed
  obtain ⟨w, hw, _, _⟩ := PushBack_ok hwf x
  refine ⟨w, hw, Get_PushBack_self hwf hw, ?_, fun hlt => Get_PushBack_lt hwf hlt hw, ?_⟩
  · intro hpre
    exact Get_PushBack_other hwf hj (fun h => hpre ((addressPath_prefix_iff hwf.2 hj).2 h)) hw
  · intro hne hpre
    exact Get_PushBack_below hwf hj hne ((addressPath_prefix_iff hwf.2 hj).1 hpre) hw

theorem pushBack_changes_slot_and_below_witness :
    ∃ w, sampleSparse.PushBack 5 = .ok w ∧ w.Get sampleSparse.Size = .ok 5 ∧
      (¬ addressPath sampleSparse.Size <+: addressPath 32 → w.Get 32 = sampleSparse.Get 32) ∧
      (32 < sampleSparse.Size → w.Get 32 = sampleSparse.Get 32) ∧
      (32 ≠ sampleSparse.Size → addressPath sampleSparse.Size <+: addressPath 32 →
        w.Get 32 = .error .runtime_error) :=
  pushBack_changes_slot_and_below sampleSparse sampleSparse_reachable 5 32 (by norm_num)

/-- C13 fails as stated: on the obtainable vector `ImmutableVector<int>().Set(32, 9)`, of
size 0, `PushBack(5)` changes the outcome of `Get(32)` from the value 9 to the lookup
failure, although `32 != Size()`. -/
theorem pushBack_changes_other_slot :
    Reachable sampleSparse ∧ sampleSparse.PushBack 5 = .ok sampleSparsePushed ∧
      32 ≠ sampleSparse.Size ∧ sampleSparse.Get 32 = .ok 9 ∧
      sampleSparsePushed.Get 32 = .error .runtime_error ∧
      sampleSparsePushed.Get 32 ≠ sampleSparse.Get 32 := by
  refine ⟨sampleSparse_reachable, sampleSparse_pushBack, by decide, sampleSparse_get,
    sampleSparsePushed_get, ?_⟩
  rw [sampleSparsePushed_get, sampleSparse_get]
  intro h
  cases h

/-- C14: for an obtainable vector `v` with `v.Size() > 0`, `v.PopBack()` returns a vector on
which `Get(v.Size())`, at the size before the pop, fails with the lookup failure. -/
theorem popBack_detaches_slot_at_size (v : ImmutableVector T) (hv : Reachable v)
    (hpos : 0 < v.Size) :
    ∃ w, v.PopBack = .ok w ∧ w.Get v.Size = .error .runtime_error := by
  have hwf := hv.wellFormed
  obtain ⟨w, hw, _, _⟩ := PopBack_ok hwf (Nat.pos_iff_ne_zero.1 hpos)
  exact ⟨w, hw, Get_PopBack_below hwf hwf.2 (List.prefix_refl _) hw⟩

theorem popBack_detaches_slot_at_size_witness :
    ∃ w, sampleVector.PopBack = .ok w ∧ w.Get sampleVector.Size = .error .runtime_error :=
  popBack_detaches_slot_at_size sampleVector sampleVector_reachable (by decide)

/-- C15: for an obtainable vector `v` with `v.Size() > 0`, `v.PopBack()` returns a vector
on which `Get(j)` gives the same outcome as on `v` for every `j < v.Size()`, in particular
for `j = v.Size() - 1`: the value that was last keeps being returned. -/
theorem popBack_keeps_slots_below_size (v : ImmutableVector T) (hv : Reachable v)
    (hpos : 0 < v.Size) :
    ∃ w, v.PopBack = .ok w ∧ (∀ j, j < v.Size → w.Get j = v.Get j) ∧
      w.Get (v.Size - 1) = v.Get (v.Size - 1) := by
  have hwf := hv.wellFormed
  obtain ⟨w, hw, _, _⟩ := PopBack_ok hwf (Nat.pos_iff_ne_zero.1 hpos)
  have hall : ∀ j, j < v.Size → w.Get j = v.Get j := fun j hj => Get_PopBack_lt hwf hj hw
  exact ⟨w, hw, hall, hall _ (Nat.sub_lt hpos (by norm_num))⟩

theorem popBack_keeps_slots_below_size_witness :
    ∃ w, sampleVector.PopBack = .ok w ∧
      (∀ j, j < sampleVector.Size → w.Get j = sampleVector.Get j) ∧
      w.Get (sampleVector.Size - 1) = sampleVector.Get (sampleVector.Size - 1) :=
  popBack_keeps_slots_below_size sampleVector sampleVector_reachable (by decide)

/-- C16: well-formedness is an invariant.  Every obtainable vector has a non-empty root
under which every node has exactly 32 child slots; every digit computed by `GetBitBatch` is
below 32, so every child access is in bounds; and on such a vector `Get`, `Set`,
`PushBack` and `PopBack` never run into undefined behaviour (an out-of-bounds access or
the dereference of an empty link): `Set` and `PushBack` return, `Get` and `PopBack` return
or throw their own error. -/
theorem reachable_well_formed (v : ImmutableVector T) (hv : Reachable v) :
    (∃ n, v.root_ = some n ∧ n.WF) ∧
      (∀ index level bits, GetBitBatch index level = .ok bits → bits < 32) ∧
      (∀ i, i < 2 ^ 64 → v.Get i ≠ .error .undefined) ∧
      (∀ i (x : T), i < 2 ^ 64 → ∃ w, v.Set i x = .ok w) ∧
      (∀ x : T, ∃ w, v.PushBack x = .ok w) ∧
      v.PopBack ≠ .error .undefined := by
  have hwf := hv.wellFormed
  refine ⟨hwf.1, fun _ _ _ h => GetBitBatch_lt h, ?_, ?_, ?_, PopBack_defined hwf⟩
  · intro i hi hcon
    rcases Get_defined hwf hi with ⟨y, hy⟩ | herr
    · rw [hy] at hcon
      cases hcon
    · rw [herr] at hcon
      cases hcon
  · intro i x hi
    obtain ⟨w, hw, _⟩ := Set_ok hwf hi x
    exact ⟨w, hw⟩
  · intro x
    obtain ⟨w, hw, _⟩ := PushBack_ok hwf x
    exact ⟨w, hw⟩

theorem reachable_well_formed_witness :
    (∃ n, sampleSparse.root_ = some n ∧ n.WF) ∧
      (∀ index level bits, GetBitBatch index level = .ok bits → bits < 32) ∧
      (∀ i, i < 2 ^ 64 → sampleSparse.Get i ≠ .error .undefined) ∧
      (∀ i (x : Nat), i < 2 ^ 64 → ∃ w, sampleSparse.Set i x = .ok w) ∧
      (∀ x : Nat, ∃ w, sampleSparse.PushBack x = .ok w) ∧
      sampleSparse.PopBack ≠ .error .undefined :=
  reachable_well_formed sampleSparse sampleSparse_reachable

end ImmutableVector

namespace ImmutableVector

variable {T : Type}

/-- C17, as the code has it: every path walk stops within `GetMaxBatchId(n)` descents.  For
an obtainable vector and a `size_t` index `n`, started at `batch_id` 0 with `max_batch_id`
equal to `GetMaxBatchId(n)`, which is at least 1, the recursions of `Insert`, `SetValue`
and `Erase` make exactly `GetMaxBatchId(n)` descents and stop; the recursion of `GetValue`
makes at most that many, and exactly that many when `Get(n)` returns a value (it throws
the lookup failure as soon as it stands on an empty link); the counted functions return
what the functions return; and the loop of `GetMaxBatchId` runs once per base-32 digit of
`n`. -/
theorem walks_stop_within_depth (v : ImmutableVector T) (hv : Reachable v) (n : Nat)
    (hn : n < 2 ^ 64) (x : T) :
    1 ≤ GetMaxBatchId n ∧
      (InsertCount v.root_ n 0 (GetMaxBatchId n) x).2 = GetMaxBatchId n ∧
      (SetValueCount v.root_ n 0 (GetMaxBatchId n) x).2 = GetMaxBatchId n ∧
      (EraseCount v.root_ n 0 (GetMaxBatchId n)).2 = GetMaxBatchId n ∧
      (GetValueCount v.root_ n 0 (GetMaxBatchId n)).2 ≤ GetMaxBatchId n ∧
      ((∃ y, v.Get n = .ok y) →
        (GetValueCount v.root_ n 0 (GetMaxBatchId n)).2 = GetMaxBatchId n) ∧
      (InsertCount v.root_ n 0 (GetMaxBatchId n) x).1 =
        Insert v.root_ n 0 (GetMaxBatchId n) x ∧
      (SetValueCount v.root_ n 0 (GetMaxBatchId n) x).1 =
        SetValue v.root_ n 0 (GetMaxBatchId n) x ∧
      (EraseCount v.root_ n 0 (GetMaxBatchId n)).1 = Erase v.root_ n 0 (GetMaxBatchId n) ∧
      (GetValueCount v.root_ n 0 (GetMaxBatchId n)).1 = v.Get n ∧
      GetMaxBatchIdLoop n 0 = (Nat.digits 32 n).length := by
  obtain ⟨⟨r, hr, hwf⟩, _⟩ := hv.wellFormed
  have hd : 0 + GetMaxBatchId n ≤ 13 := by have := GetMaxBatchId_le hn; omega
  have hI := InsertCount_snd n x (GetMaxBatchId n) 0 r hwf hd
  have hS := SetValueCount_snd n x (GetMaxBatchId n) 0 r hwf hd
  have hE := EraseCount_snd n (GetMaxBatchId n) 0 r hwf hd
  have hG := GetValueCount_snd n (GetMaxBatchId n) 0 v.root_ hd
  have hI1 := InsertCount_fst n x (GetMaxBatchId n) 0 v.root_ hd
  have hS1 := SetValueCount_fst n x (GetMaxBatchId n) 0 v.root_ hd
  have hE1 := EraseCount_fst n (GetMaxBatchId n) 0 v.root_ hd
  have hG1 := GetValueCount_fst n (GetMaxBatchId n) 0 v.root_ hd
  rw [Nat.zero_add] at hI hS hE hG hI1 hS1 hE1 hG1
  rw [← hr] at hI hS hE
  refine ⟨GetMaxBatchId_pos n, hI, hS, hE, hG.1, ?_, hI1, hS1, hE1, hG1, ?_⟩
  · intro hy
    apply hG.2
    rw [hG1]
    exact hy
  · rw [GetMaxBatchIdLoop_eq, Nat.zero_add]

theorem walks_stop_within_depth_witness :
    1 ≤ GetMaxBatchId 32 ∧
      (InsertCount sampleSparse.root_ 32 0 (GetMaxBatchId 32) 5).2 = GetMaxBatchId 32 ∧
      (SetValueCount sampleSparse.root_ 32 0 (GetMaxBatchId 32) 5).2 = GetMaxBatchId 32 ∧
      (EraseCount sampleSparse.root_ 32 0 (GetMaxBatchId 32)).2 = GetMaxBatchId 32 ∧
      (GetValueCount sampleSparse.root_ 32 0 (GetMaxBatchId 32)).2 ≤ GetMaxBatchId 32 ∧
      ((∃ y, sampleSparse.Get 32 = .ok y) →
        (GetValueCount sampleSparse.root_ 32 0 (GetMaxBatchId 32)).2 = GetMaxBatchId 32) ∧
      (InsertCount sampleSparse.root_ 32 0 (GetMaxBatchId 32) 5).1 =
        Insert sampleSparse.root_ 32 0 (GetMaxBatchId 32) 5 ∧
      (SetValueCount sampleSparse.root_ 32 0 (GetMaxBatchId 32) 5).1 =
        SetValue sampleSparse.root_ 32 0 (GetMaxBatchId 32) 5 ∧
      (EraseCount sampleSparse.root_ 32 0 (GetMaxBatchId 32)).1 =
        Erase sampleSparse.root_ 32 0 (GetMaxBatchId 32) ∧
      (GetValueCount sampleSparse.root_ 32 0 (GetMaxBatchId 32)).1 = sampleSparse.Get 32 ∧
      GetMaxBatchIdLoop 32 0 = (Nat.digits 32 32).length :=
  walks_stop_within_depth sampleSparse sampleSparse_reachable 32 (by norm_num) 5

/-- C17 fails as stated for `GetValue`: on the empty vector the lookup of index 32, started
at `batch_id` 0 with `max_batch_id = GetMaxBatchId(32) = 2`, makes one descent, not two: at
level 1 it stands on the empty link in slot 0 of the root and throws. -/
theorem getValue_stops_before_depth :
    (GetValueCount (new : ImmutableVector Nat).root_ 32 0 (GetMaxBatchId 32)).2 = 1 ∧
      GetMaxBatchId 32 = 2 ∧
      (GetValueCount (new : ImmutableVector Nat).root_ 32 0 (GetMaxBatchId 32)).2 ≠
        GetMaxBatchId 32 := by
  refine ⟨GetValueCount_new_32, GetMaxBatchId_32, ?_⟩
  rw [GetValueCount_new_32, GetMaxBatchId_32]
  decide

end ImmutableVector

namespace ImmutableVector

variable {T : Type}

/-- C18: the vector refines the list model also with `PopBack`.  For every in-range
sequence of `PushBack`, `Set` and `PopBack` calls made from the empty vector, with a
reference list updated in parallel (append, overwrite, drop the last element), after every
call the calls have returned a vector whose `Size()` is the length of the list and whose
`Get(i)` returns the `i`-th element of the list for every `i < Size()`; so a `PushBack`
after a `PopBack` overwrites the slot the pop left behind. -/
theorem list_refinement_with_popBack (ops : List (Op T)) (hr : InRange [] ops) (k : Nat) :
    ∃ v, runOps new (ops.take k) = .ok v ∧ v.Size = (modelOps [] (ops.take k)).length ∧
      ∀ i (hi : i < (modelOps [] (ops.take k)).length),
        v.Get i = .ok (modelOps [] (ops.take k))[i] := by
  obtain ⟨w, hw, _, hsz, hget⟩ :=
    runOps_agree (ops.take k) new [] WellFormed_new Agree_new (InRange_take ops [] k hr)
  exact ⟨w, hw, hsz, hget⟩

theorem list_refinement_with_popBack_witness :
    ∃ v, runOps new (samplePopOps.take 4) = .ok v ∧
      v.Size = (modelOps [] (samplePopOps.take 4)).length ∧
      ∀ i (hi : i < (modelOps [] (samplePopOps.take 4)).length),
        v.Get i = .ok (modelOps [] (samplePopOps.take 4))[i] :=
  list_refinement_with_popBack samplePopOps
    ⟨by norm_num, by norm_num, by norm_num, by norm_num, by decide, trivial⟩ 4

end ImmutableVector

namespace ImmutableVector

variable {T : Type}

/-- C19: nothing beyond the size is populated in in-range use.  Every in-range sequence of
`PushBack`, `PopBack` and `Set` calls made from the empty vector returns a vector on which
`Get(i)` fails with the lookup failure for every `size_t` index `i > Size()`; when the
sequence has no `PopBack`, `Get(i)` returns a value exactly when `i < Size()`; and `Get`
fails at every index of the empty vector. -/
theorem nothing_populated_beyond_size (ops : List (Op T)) (hr : InRange [] ops) :
    ∃ v, runOps new ops = .ok v ∧
      (∀ i, i < 2 ^ 64 → v.Size < i → v.Get i = .error .runtime_error) ∧
      ((∀ op ∈ ops, op.isGrow = true) →
        ∀ i, i < 2 ^ 64 → (v.Size ≤ i → v.Get i = .error .runtime_error) ∧
          ((∃ y, v.Get i = .ok y) ↔ i < v.Size)) ∧
      (∀ i, i < 2 ^ 64 → (new : ImmutableVector T).Get i = .error .runtime_error) := by
  obtain ⟨w, hw, ha, hinv, hgrow⟩ :=
    runOps_beyond ops new [] WellFormed_new Agree_new hr (fun i hi _ => Get_new i hi)
  refine ⟨w, hw, hinv, ?_, fun i hi => Get_new i hi⟩
  intro hall i hi
  have hfail := hgrow hall (fun i hi _ => Get_new i hi) i hi
  refine ⟨hfail, ?_, ?_⟩
  · rintro ⟨y, hy⟩
    by_contra hge
    have hge' : w.size_ ≤ i := Nat.le_of_not_lt hge
    rw [hfail hge'] at hy
    cases hy
  · intro hlt
    have hlt' : i < (modelOps [] ops).length := by rw [← ha.1]; exact hlt
    exact ⟨_, ha.2 i hlt'⟩

theorem nothing_populated_beyond_size_witness :
    ∃ v, runOps new samplePopOps = .ok v ∧
      (∀ i, i < 2 ^ 64 → v.Size < i → v.Get i = .error .runtime_error) ∧
      ((∀ op ∈ samplePopOps, op.isGrow = true) →
        ∀ i, i < 2 ^ 64 → (v.Size ≤ i → v.Get i = .error .runtime_error) ∧
          ((∃ y, v.Get i = .ok y) ↔ i < v.Size)) ∧
      (∀ i, i < 2 ^ 64 → (new : ImmutableVector Nat).Get i = .error .runtime_error) :=
  nothing_populated_beyond_size samplePopOps
    ⟨by norm_num, by norm_num, by norm_num, by norm_num, by decide, trivial⟩

end ImmutableVector
